import Mathlib

/-!
Verification of the lowzip library (lowzip.c / lowzip.h): a shallow embedding
of the ZIP reader and its built-in DEFLATE (RFC 1951) inflater, together with
theorems settling the specification claims.

Modelling conventions:
* C `unsigned int` values are `Nat` with an explicit `% 2 ^ 32` wherever the C
  arithmetic can wrap; `unsigned short` accumulation wraps at `% 65536`.
* The user read callback `udata`/`read_callback` pair is a function
  `Nat → Nat`; a result with bit 8 set (`x &&& 0x100 ≠ 0`) is the out-of-bounds
  sentinel, exactly as tested by the C code.
* The output window `[output_start, output_end)` is modelled by the list `out`
  of bytes written so far (the interval `[output_start, output_next)`) plus the
  total capacity `out_cap` (`output_end - output_start`).
* The 1020-byte `scratch` union is modelled by one field per temporally
  disjoint role: the ZIP `lowzip_file` record, and the literal/length,
  distance and code-length Huffman tables.  The C program never reads one
  role after writing another, so the aliasing itself is unobservable.
-/

namespace Lowzip

set_option maxRecDepth 8000

/-- Modulus of C `unsigned int` arithmetic. -/
def U32 : Nat := 2 ^ 32

/-- Wrapping subtraction of `unsigned int` values (both arguments < 2^32 in
all reachable states; the definition is total regardless). -/
def usub32 (a b : Nat) : Nat := (a + (U32 - b % U32)) % U32

/-- Conversion of a C `int` value to `unsigned int` (two's complement). -/
def u32ofInt (x : Int) : Nat := (x % (U32 : Int)).toNat

/-- Read callback: maps an offset to a byte `0x00..0xFF` or a value with bit 8
set (canonically `0x100`) signalling out-of-bounds. -/
abbrev Callback := Nat → Nat

/-- Extra bits for length codes, `lowzip_len_bits` in lowzip.c. -/
def lowzip_len_bits : List Nat :=
  [0, 0, 0, 0, 0, 0, 0, 0, 1, 1, 1, 1, 2, 2, 2, 2] ++
    [3, 3, 3, 3, 4, 4, 4, 4, 5, 5, 5, 5, 0]

/-- Base values (minus 3) for length codes, `lowzip_len_base` in lowzip.c. -/
def lowzip_len_base : List Nat :=
  [0, 1, 2, 3, 4, 5, 6, 7, 8, 10, 12, 14, 16, 20, 24, 28,
   32, 40, 48, 56, 64, 80, 96, 112, 128, 160, 192, 224, 255]

/-- Extra bits for distance codes, `lowzip_dist_bits` in lowzip.c. -/
def lowzip_dist_bits : List Nat :=
  [0, 0, 0, 0, 1, 1, 2, 2, 3, 3, 4, 4, 5, 5, 6, 6, 7, 7] ++
    [8, 8, 9, 9, 10, 10, 11, 11, 12, 12, 13, 13]

/-- Base values for distance codes, `lowzip_dist_base` in lowzip.c. -/
def lowzip_dist_base : List Nat :=
  [1, 2, 3, 4, 5, 7, 9, 13, 17, 25, 33, 49, 65, 97, 129] ++
    [193, 257, 385, 513, 769, 1025, 1537, 2049, 3073, 4097] ++
    [6145, 8193, 12289, 16385, 24577]

/-- Code length alphabet permutation order, `lowzip_codelen_order`. -/
def lowzip_codelen_order : List Nat :=
  [16, 17, 18, 0, 8, 7, 9, 6, 10, 5, 11, 4, 12, 3, 13, 2, 14, 1, 15]

/-- Huffman table as written by `lowzip_prepare_huffman`: 16 per-length
counts followed by the packed terminal symbol values. -/
structure HuffTable where
  counts : List Nat
  codes : List Nat
  deriving Repr, DecidableEq

/-- The `lowzip_file` record built in scratch by `lowzip_locate_file`. -/
structure LowzipFile where
  have_data_descriptor : Nat
  compression_method : Nat
  crc32 : Nat
  compressed_size : Nat
  uncompressed_size : Nat
  data_offset : Nat
  filename : List Nat
  deriving Repr, DecidableEq

/-- The `lowzip_state` structure (without the callback, which is passed as an
ambient argument so that states of runs over different archives can be
compared).  `out`/`out_cap` model the output window, and the last four fields
model the scratch area roles as documented at the top of the file. -/
structure LowzipState where
  zip_length : Nat
  out : List Nat
  out_cap : Nat
  central_dir_offset : Nat
  have_error : Bool
  read_offset : Nat
  curr : Nat
  haveBits : Nat
  fi : LowzipFile
  huff_lit : HuffTable
  huff_dist : HuffTable
  huff_cl : HuffTable
  deriving Repr

/-- C `lowzip_write_byte`: refuse the write and set `have_error` when the
output window is full, append otherwise.  The `% 256` is the conversion to
the `unsigned char` parameter type. -/
def lowzip_write_byte (st : LowzipState) (ch : Nat) : LowzipState :=
  if st.out.length ≥ st.out_cap then
    { st with have_error := true }
  else
    { st with out := st.out ++ [ch % 256] }

/-- Accumulator loop of C `lowzip_read_little_endian`: bytes are read from
`offset + count - 1` down to `offset`; an OOB read sets `have_error` and
makes the result 0. -/
def readLEAux (cb : Callback) (st : LowzipState) (offset : Nat) :
    Nat → Nat → Nat × LowzipState
  | 0, res => (res, st)
  | count + 1, res =>
    let t := cb ((offset + count) % U32)
    if t &&& 0x100 ≠ 0 then
      (0, { st with have_error := true })
    else
      readLEAux cb st offset count (((res <<< 8) + t) % U32)

/-- C `lowzip_read_little_endian`. -/
def lowzip_read_little_endian (cb : Callback) (st : LowzipState)
    (offset count : Nat) : Nat × LowzipState :=
  readLEAux cb st offset count 0

/-- C `lowzip_read4`. -/
def lowzip_read4 (cb : Callback) (st : LowzipState) (offset : Nat) :
    Nat × LowzipState :=
  lowzip_read_little_endian cb st offset 4

/-- C `lowzip_read2`. -/
def lowzip_read2 (cb : Callback) (st : LowzipState) (offset : Nat) :
    Nat × LowzipState :=
  lowzip_read_little_endian cb st offset 2

/-- C `lowzip_read1`. -/
def lowzip_read1 (cb : Callback) (st : LowzipState) (offset : Nat) :
    Nat × LowzipState :=
  lowzip_read_little_endian cb st offset 1

/-- C `lowzip_read_byte`: sequential read at `read_offset`; on OOB, flag the
error and feed in a zero without advancing the offset. -/
def lowzip_read_byte (cb : Callback) (st : LowzipState) : Nat × LowzipState :=
  let x := cb st.read_offset
  if x &&& 0x100 ≠ 0 then
    (0, { st with have_error := true })
  else
    (x, { st with read_offset := (st.read_offset + 1) % U32 })

/-- Refill loop of C `lowzip_read_bits` (`while (have < nbits)`).  The first
argument is a structural-recursion bound on the number of iterations; the
loop adds 8 to `haveB` each round, so at most `nbits` iterations happen, and
`lowzip_read_bits` instantiates the bound with `nbits`, which therefore never
runs out. -/
def readBitsFill (cb : Callback) : Nat → LowzipState → Nat → Nat → Nat →
    Nat × Nat × LowzipState
  | 0, st, curr, haveB, _ => (curr, haveB, st)
  | k + 1, st, curr, haveB, nbits =>
    if haveB < nbits then
      let p := lowzip_read_byte cb st
      readBitsFill cb k p.2 ((curr ||| (p.1 <<< haveB)) % U32) (haveB + 8) nbits
    else
      (curr, haveB, st)

/-- C `lowzip_read_bits`: read `nbits` bits in LSB-first order. -/
def lowzip_read_bits (cb : Callback) (st : LowzipState) (nbits : Nat) :
    Nat × LowzipState :=
  let f := readBitsFill cb nbits st st.curr st.haveBits nbits
  let mask := (1 <<< nbits) - 1
  (f.1 &&& mask,
   { f.2.2 with haveBits := f.2.1 - nbits, curr := f.1 >>> nbits })

/-- Bit-reversal loop of C `lowzip_read_bits_reversed`.  The first argument
is a structural-recursion bound on the iteration count: `mask1` halves every
round, and the caller passes `nbits + 1` together with `mask1 = 1 <<< nbits`,
so the bound never runs out. -/
def bitrevLoop (tmp : Nat) : Nat → Nat → Nat → Nat → Nat
  | 0, _, _, res => res
  | k + 1, mask1, mask2, res =>
    let m := mask1 >>> 1
    if m = 0 then res
    else
      bitrevLoop tmp k m ((mask2 <<< 1) % U32)
        (if tmp &&& m ≠ 0 then (res + mask2) % U32 else res)

/-- C `lowzip_read_bits_reversed`: read `nbits` bits in MSB-first order. -/
def lowzip_read_bits_reversed (cb : Callback) (st : LowzipState)
    (nbits : Nat) : Nat × LowzipState :=
  let p := lowzip_read_bits cb st nbits
  (bitrevLoop p.1 (nbits + 1) (1 <<< nbits) 1 0, p.2)

/-- C `lowzip_reset_bitstate`: discard buffered bits.  The byte read offset
and (per the `#if 0` in the source) the `curr` accumulator are unchanged. -/
def lowzip_reset_bitstate (st : LowzipState) : LowzipState :=
  { st with haveBits := 0 }

/-- Inner 8-iteration loop of C `lowzip_zip_crc32`. -/
def crcBitLoop : Nat → Nat → Nat
  | crc, 0 => crc
  | crc, i + 1 =>
    crcBitLoop (if crc &&& 1 ≠ 0 then (crc >>> 1) ^^^ 0xedb88320 else crc >>> 1) i

/-- C `lowzip_zip_crc32` over the byte range `[p_start, p_end)`, here the
list of bytes. -/
def lowzip_zip_crc32 (bytes : List Nat) : Nat :=
  (bytes.foldl (fun crc b => crcBitLoop (crc ^^^ b) 8) 0xffffffff) ^^^ 0xffffffff

/-- Counting loop of C `lowzip_prepare_huffman`: bump `counts[len]` for each
code length, failing (`none`) on the first length above 15.  Counts are
stored as `unsigned short`, hence the `% 65536`. -/
def prepCountsLoop : List Nat → List Nat → Option (List Nat)
  | [], counts => some counts
  | t :: rest, counts =>
    if t > 15 then none
    else prepCountsLoop rest (counts.set t ((counts.getD t 0 + 1) % 65536))

/-- Codes output of C `lowzip_prepare_huffman`: for each code length 1..15 in
order, emit the indices (terminal values) whose code length equals it. -/
def prepCodes (code_lens : List Nat) : List Nat :=
  (List.range' 1 15).flatMap fun i =>
    (List.range code_lens.length).filter fun j => code_lens.getD j 0 = i

/-- C `lowzip_prepare_huffman`.  On a code length above 15 the error flag is
set and the (never afterwards consulted) table contents are unspecified; the
model returns an empty table in that case. -/
def lowzip_prepare_huffman (st : LowzipState) (code_lens : List Nat) :
    LowzipState × HuffTable :=
  match prepCountsLoop code_lens (List.replicate 16 0) with
  | none => ({ st with have_error := true }, ⟨List.replicate 16 0, []⟩)
  | some counts => (st, ⟨counts, prepCodes code_lens⟩)

/-- Level loop of C `lowzip_decode_huffman`: walk the per-length counts
(levels 1..15, the list argument), reading one bit per level.  All additions
and the subtraction `code - code_start` are `unsigned int` arithmetic. -/
def decodeHuffLoop (cb : Callback) (codes : List Nat) :
    LowzipState → Nat → Nat → Nat → List Nat → Nat × LowzipState
  | st, _, _, _, [] => (0, { st with have_error := true })
  | st, code, code_start, codes_offset, curr_count :: rest =>
    let p := lowzip_read_bits cb st 1
    let code2 := (((code <<< 1) + p.1)) % U32
    if usub32 code2 code_start < curr_count then
      (codes.getD ((codes_offset + usub32 code2 code_start) % U32) 0, p.2)
    else
      decodeHuffLoop cb codes p.2 code2
        (((code_start + curr_count) <<< 1) % U32)
        ((codes_offset + curr_count) % U32) rest

/-- C `lowzip_decode_huffman`: decode one terminal value; if no codeword
terminates within 15 bits, set `have_error` and return 0. -/
def lowzip_decode_huffman (cb : Callback) (st : LowzipState)
    (huff : HuffTable) : Nat × LowzipState :=
  decodeHuffLoop cb huff.codes st 0 0 0 (huff.counts.drop 1)

/-- Copy loop for an uncompressed block (`while (len-- > 0)`), reading input
bytes and writing them through `lowzip_write_byte`. -/
def uncCopyLoop (cb : Callback) : Nat → LowzipState → LowzipState
  | 0, st => st
  | n + 1, st =>
    let p := lowzip_read_byte cb st
    uncCopyLoop cb n (lowzip_write_byte p.2 (p.1 % 256))

/-- C `lowzip_decode_uncompressed_block`: byte-align, read the 16-bit LEN,
skip the two NLEN bytes without using their values, then copy LEN bytes
verbatim. -/
def lowzip_decode_uncompressed_block (cb : Callback) (st : LowzipState) :
    LowzipState :=
  let st0 := lowzip_reset_bitstate st
  let p0 := lowzip_read_byte cb st0
  let p1 := lowzip_read_byte cb p0.2
  let len := (p0.1 + (p1.1 <<< 8)) % U32
  let p2 := lowzip_read_byte cb p1.2
  let p3 := lowzip_read_byte cb p2.2
  uncCopyLoop cb len p3.2

/-- Hand-crafted static Huffman literal/length decoder from
`lowzip_decode_huffman_block_data` (the `static_huffman` branch). -/
def staticLitLenDecode (cb : Callback) (st : LowzipState) :
    Nat × LowzipState :=
  let p := lowzip_read_bits_reversed cb st 7
  let t := p.1
  if t ≤ 0x17 then (t + 256, p.2)
  else if t ≤ 0x5f then
    let q := lowzip_read_bits cb p.2 1
    ((t <<< 1) + q.1 - 48, q.2)
  else if t ≤ 0x63 then
    let q := lowzip_read_bits cb p.2 1
    ((t <<< 1) + q.1 + 88, q.2)
  else
    let q := lowzip_read_bits_reversed cb p.2 2
    ((t <<< 2) + q.1 - 256, q.2)

/-- Back-reference copy loop (`while (back_len-- > 0)`): one byte at a time
from `output_next - back_dist` to `output_next`, advancing the cursor after
each byte.  This writes directly, not through `lowzip_write_byte`; the space
check was performed by the caller. -/
def backrefCopy (back_dist : Nat) : Nat → LowzipState → LowzipState
  | 0, st => st
  | n + 1, st =>
    backrefCopy back_dist n
      { st with out := st.out ++ [st.out.getD (st.out.length - back_dist) 0] }

/-- One iteration of the `for (;;)` loop of
`lowzip_decode_huffman_block_data`.  The returned Bool is true when the loop
is left (end-of-block, sticky error observed at the top, or one of the
`goto format_error` / `goto buffer_error` exits, which set `have_error`). -/
def huffBlockStep (cb : Callback) (static_huffman : Bool)
    (st : LowzipState) : LowzipState × Bool :=
  if st.have_error then (st, true)
  else
    let p :=
      if static_huffman then staticLitLenDecode cb st
      else lowzip_decode_huffman cb st st.huff_lit
    let t := p.1
    let st1 := p.2
    if t < 256 then (lowzip_write_byte st1 t, false)
    else if t = 256 then (st1, true)
    else if t > 285 then ({ st1 with have_error := true }, true)
    else
      let k := t - 257
      let q := lowzip_read_bits cb st1 (lowzip_len_bits.getD k 0)
      let back_len := (lowzip_len_base.getD k 0 + 3 + q.1) % U32
      let r :=
        if static_huffman then lowzip_read_bits_reversed cb q.2 5
        else lowzip_decode_huffman cb q.2 q.2.huff_dist
      let d := r.1
      let st2 := r.2
      if d > 29 then ({ st2 with have_error := true }, true)
      else
        let s := lowzip_read_bits cb st2 (lowzip_dist_bits.getD d 0)
        let back_dist := (lowzip_dist_base.getD d 0 + s.1) % U32
        let st3 := s.2
        if (back_dist : Int) > (st3.out.length : Int) then
          ({ st3 with have_error := true }, true)
        else if (back_len : Int) > (st3.out_cap : Int) - (st3.out.length : Int) then
          ({ st3 with have_error := true }, true)
        else
          (backrefCopy back_dist back_len st3, false)

/-- Fueled `for (;;)` loop of C `lowzip_decode_huffman_block_data`.  The loop
always terminates in the C code (each iteration errors, ends the block, or
strictly grows the bounded output); the fuel makes that explicit, and
every statement below holds for every fuel value. -/
def huffBlockLoop (cb : Callback) (static_huffman : Bool) :
    Nat → LowzipState → LowzipState
  | 0, st => st
  | n + 1, st =>
    let p := huffBlockStep cb static_huffman st
    if p.2 then p.1 else huffBlockLoop cb static_huffman n p.1

/-- C `lowzip_decode_huffman_block_data`. -/
def lowzip_decode_huffman_block_data (cb : Callback) (static_huffman : Bool)
    (fuel : Nat) (st : LowzipState) : LowzipState :=
  huffBlockLoop cb static_huffman fuel st

/-- Read loop for the code length alphabet lengths
(`codelen_code_lens[lowzip_codelen_order[i]] = lowzip_read_bits(st, 3)`). -/
def clLensLoop (cb : Callback) : Nat → Nat → List Nat → LowzipState →
    List Nat × LowzipState
  | _, 0, lens, st => (lens, st)
  | i, n + 1, lens, st =>
    let p := lowzip_read_bits cb st 3
    clLensLoop cb (i + 1) n (lens.set (lowzip_codelen_order.getD i 0) p.1) p.2

/-- Emission of `rep_count` copies of `rep_code` by the inner
`while (rep_count-- > 0)` loop; `none` when the bounds check
`i >= nlit + ndist` fires (the C `goto format_error`). -/
def emitRep (lens : List Nat) (total rep_code rep_count : Nat) :
    Option (List Nat) :=
  if lens.length + rep_count ≤ total then
    some (lens ++ List.replicate rep_count (rep_code % 256))
  else none

/-- Code length decoding loop of `lowzip_decode_dynamic_huffman_block`
(`for (i = 0; i != nlit + ndist;)`).  Returns `none` on the
`goto format_error` exits; the caller then sets `have_error`.  The first Nat
argument is a structural-recursion bound on the iteration count: every
iteration that does not leave the loop emits at least one code length, so at
most `total + 1` iterations happen; the caller passes `total + 1`, which
therefore never runs out (the fuel-out branch returns the format-error shape
but is unreachable). -/
def codeLenLoop (cb : Callback) (clTbl : HuffTable) (total : Nat) :
    Nat → LowzipState → List Nat → LowzipState × Option (List Nat)
  | 0, st, _ => (st, none)
  | k + 1, st, lens =>
    if lens.length = total then (st, some lens)
    else
      let p := lowzip_decode_huffman cb st clTbl
      let t := p.1
      let st1 := p.2
      if t < 16 then
        match emitRep lens total t 1 with
        | some lens2 => codeLenLoop cb clTbl total k st1 lens2
        | none => (st1, none)
      else if t = 16 then
        if lens.length = 0 then (st1, none)
        else
          let q := lowzip_read_bits cb st1 2
          match emitRep lens total (lens.getD (lens.length - 1) 0) (3 + q.1) with
          | some lens2 => codeLenLoop cb clTbl total k q.2 lens2
          | none => (q.2, none)
      else if t = 17 then
        let q := lowzip_read_bits cb st1 3
        match emitRep lens total 0 (3 + q.1) with
        | some lens2 => codeLenLoop cb clTbl total k q.2 lens2
        | none => (q.2, none)
      else if t = 18 then
        let q := lowzip_read_bits cb st1 7
        match emitRep lens total 0 (11 + q.1) with
        | some lens2 => codeLenLoop cb clTbl total k q.2 lens2
        | none => (q.2, none)
      else (st1, none)

/-- Header reads and code-length-alphabet setup of
`lowzip_decode_dynamic_huffman_block` (everything up to and including the
first `lowzip_prepare_huffman` call).  Returns the state (with `huff_cl`
updated), the prepared code length table, and `nlit`/`ndist`. -/
def dynHuffHeader (cb : Callback) (st : LowzipState) :
    LowzipState × HuffTable × Nat × Nat :=
  let pa := lowzip_read_bits cb st 5
  let nlit := pa.1 + 257
  let pb := lowzip_read_bits cb pa.2 5
  let ndist := pb.1 + 1
  let pc := lowzip_read_bits cb pb.2 4
  let nclen := pc.1 + 4
  let pl := clLensLoop cb 0 nclen (List.replicate 19 0) pc.2
  let pp := lowzip_prepare_huffman pl.2 pl.1
  ({ pp.1 with huff_cl := pp.2 }, pp.2, nlit, ndist)

/-- C `lowzip_decode_dynamic_huffman_block`. -/
def lowzip_decode_dynamic_huffman_block (cb : Callback) (fuel : Nat)
    (st : LowzipState) : LowzipState :=
  let h := dynHuffHeader cb st
  let st1 := h.1
  let clTbl := h.2.1
  let nlit := h.2.2.1
  let ndist := h.2.2.2
  if st1.have_error then st1
  else
    match codeLenLoop cb clTbl (nlit + ndist) (nlit + ndist + 1) st1 [] with
    | (st2, none) => { st2 with have_error := true }
    | (st2, some lens) =>
      let pl := lowzip_prepare_huffman st2 (lens.take nlit)
      let st3 := { pl.1 with huff_lit := pl.2 }
      if st3.have_error then st3
      else
        let pd := lowzip_prepare_huffman st3 (lens.drop nlit)
        let st4 := { pd.1 with huff_dist := pd.2 }
        if st4.have_error then st4
        else lowzip_decode_huffman_block_data cb false fuel st4

/-- C `lowzip_decode_static_huffman_block`. -/
def lowzip_decode_static_huffman_block (cb : Callback) (fuel : Nat)
    (st : LowzipState) : LowzipState :=
  lowzip_decode_huffman_block_data cb true fuel st

/-- Fueled block loop of C `lowzip_decode_inflate_blocks`: decode blocks
until a block with BFINAL set has been processed or the sticky error is
observed. -/
def lowzip_decode_inflate_blocks (cb : Callback) :
    Nat → LowzipState → LowzipState
  | 0, st => st
  | fuel + 1, st =>
    if st.have_error then st
    else
      let p := lowzip_read_bits cb st 3
      let blockhdr := p.1
      let st1 :=
        match blockhdr >>> 1 with
        | 0 => lowzip_decode_uncompressed_block cb p.2
        | 1 => lowzip_decode_static_huffman_block cb fuel p.2
        | 2 => lowzip_decode_dynamic_huffman_block cb fuel p.2
        | _ => { p.2 with have_error := true }
      if blockhdr &&& 1 ≠ 0 then st1
      else lowzip_decode_inflate_blocks cb fuel st1

/-- C `lowzip_inflate_raw`. -/
def lowzip_inflate_raw (cb : Callback) (fuel : Nat) (st : LowzipState) :
    LowzipState :=
  lowzip_decode_inflate_blocks cb fuel (lowzip_reset_bitstate st)

/-- Scan loop of C `lowzip_init_archive`.  The C loop variable `offset` is a
signed `int` running from `zip_length - 22` down to `zip_length - 65557`; the
countdown argument counts the 65536 candidate offsets, and all reads convert
the signed offset to `unsigned int`. -/
def initArchiveLoop (cb : Callback) (zl : Nat) :
    Nat → Int → LowzipState → LowzipState
  | 0, _, st => { st with have_error := true }
  | n + 1, offset, st =>
    if st.have_error then { st with have_error := true }
    else
      let pm := lowzip_read4 cb st (u32ofInt offset)
      if pm.1 ≠ 0x06054b50 then initArchiveLoop cb zl n (offset - 1) pm.2
      else
        let pc := lowzip_read2 cb pm.2 (u32ofInt (offset + 20))
        if (u32ofInt (offset + 22) + pc.1) % U32 ≠ zl % U32 then
          initArchiveLoop cb zl n (offset - 1) pc.2
        else
          let pd := lowzip_read4 cb pc.2 (u32ofInt (offset + 16))
          { pd.2 with central_dir_offset := pd.1 }

/-- C `lowzip_init_archive`. -/
def lowzip_init_archive (cb : Callback) (st : LowzipState) : LowzipState :=
  let st0 := { st with have_error := false }
  initArchiveLoop cb st0.zip_length 65536 ((st0.zip_length : Int) - 22) st0

/-- Filename comparison loop of C `lowzip_locate_file`: compare the
central-directory filename at `offset + 46` byte-for-byte against `name`.
Returns whether all `flen` bytes matched. -/
def nameCmpLoop (cb : Callback) (offset : Nat) (name : List Nat) :
    Nat → Nat → LowzipState → Bool × LowzipState
  | i, flen, st =>
    if _h : i < flen then
      let p := lowzip_read1 cb st ((offset + 46 + i) % U32)
      if p.1 ≠ name.getD i 0 then (false, p.2)
      else nameCmpLoop cb offset name (i + 1) flen p.2
    else (true, st)
  termination_by i flen _ => flen - i
  decreasing_by omega

/-- Filename copy loop of C `lowzip_locate_file`: copy the (truncated)
filename bytes into the scratch `lowzip_file`. -/
def fnameCopyLoop (cb : Callback) (offset : Nat) :
    List Nat → Nat → LowzipState → List Nat × LowzipState
  | acc, 0, st => (acc, st)
  | acc, n + 1, st =>
    let p := lowzip_read1 cb st ((offset + 46 + acc.length) % U32)
    fnameCopyLoop cb offset (acc ++ [p.1 % 256]) n p.2

/-- Local file header cross-read of C `lowzip_locate_file` (everything after
a central directory entry has matched): check the local header magic and
populate the scratch `lowzip_file`.  Returns `none` (caller breaks out and
flags the error) when the magic mismatches. -/
def readLocalHeader (cb : Callback) (offset flen : Nat) (st : LowzipState) :
    LowzipState × Bool :=
  let ph := lowzip_read4 cb st ((offset + 42) % U32)
  let lhdr := ph.1
  let pm := lowzip_read4 cb ph.2 lhdr
  if pm.1 ≠ 0x04034b50 then (pm.2, false)
  else
    let p1 := lowzip_read2 cb pm.2 ((lhdr + 6) % U32)
    let p2 := lowzip_read2 cb p1.2 ((lhdr + 8) % U32)
    let p3 := lowzip_read4 cb p2.2 ((lhdr + 14) % U32)
    let p4 := lowzip_read4 cb p3.2 ((lhdr + 18) % U32)
    let p5 := lowzip_read4 cb p4.2 ((lhdr + 22) % U32)
    let p6 := lowzip_read2 cb p5.2 ((lhdr + 26) % U32)
    let p7 := lowzip_read2 cb p6.2 ((lhdr + 28) % U32)
    let n := if flen > 255 then 255 else flen
    let pf := fnameCopyLoop cb offset [] n p7.2
    (({ pf.2 with
        fi :=
          { have_data_descriptor := p1.1 &&& 0x08
            compression_method := p2.1
            crc32 := p3.1
            compressed_size := p4.1
            uncompressed_size := p5.1
            data_offset := (lhdr + 30 + ((p6.1 + p7.1) % U32)) % U32
            filename := pf.1 } }), true)

/-- Fueled central directory scan loop of C `lowzip_locate_file`.  The Bool
result is true when a matching entry with a valid local header was found (the
C function then returns the scratch `lowzip_file` pointer); false means the
`break` paths, after which `lowzip_locate_file` flags the error.  The fuel
bounds the number of directory entries examined; every claim below holds for
every fuel value. -/
def locateLoop (cb : Callback) (name : Option (List Nat)) :
    Nat → Int → Nat → LowzipState → LowzipState × Bool
  | 0, _, _, st => (st, false)
  | n + 1, idx, offset, st =>
    let pm := lowzip_read4 cb st offset
    if pm.1 ≠ 0x02014b50 then (pm.2, false)
    else
      let pf := lowzip_read2 cb pm.2 ((offset + 28) % U32)
      let flen := pf.1
      let fm : Bool × LowzipState :=
        match name with
        | some nm =>
          if flen = nm.length then nameCmpLoop cb offset nm 0 flen pf.2
          else (false, pf.2)
        | none => (idx = 0, pf.2)
      let idx2 := match name with | some _ => idx | none => idx - 1
      if fm.1 then readLocalHeader cb offset flen fm.2
      else
        let pe := lowzip_read2 cb fm.2 ((offset + 30) % U32)
        let pc := lowzip_read2 cb pe.2 ((offset + 32) % U32)
        locateLoop cb name n idx2
          ((offset + 46 + ((flen + pe.1 + pc.1) % U32)) % U32) pc.2

/-- C `lowzip_locate_file`.  `idx` is the C `int` index argument; `name` is
`none` for the NULL pointer and otherwise the byte string of the name. -/
def lowzip_locate_file (cb : Callback) (fuel : Nat) (idx : Int)
    (name : Option (List Nat)) (st : LowzipState) : LowzipState × Bool :=
  let st0 := { st with have_error := false }
  let p := locateLoop cb name fuel idx st0.central_dir_offset st0
  if p.2 then p else ({ p.1 with have_error := true }, false)

/-- STORE copy loop of C `lowzip_get_data`
(`for (; offset < offset_end; offset++)`).  The `goto fail` taken when the
sticky error is observed mid-loop leaves the function immediately; the error
flag is already set, so the model just stops. -/
def storeCopyLoop (cb : Callback) : Nat → Nat → LowzipState → LowzipState
  | 0, _, st => st
  | n + 1, offset, st =>
    if st.have_error then st
    else
      let p := lowzip_read1 cb st offset
      storeCopyLoop cb n ((offset + 1) % U32) (lowzip_write_byte p.2 (p.1 % 256))

/-- Decompression phase of C `lowzip_get_data` (the STORE / DEFLATE /
unsupported-method branch), after the error flag reset. -/
def getDataDecomp (cb : Callback) (fuel : Nat) (st : LowzipState) :
    LowzipState :=
  let fi := st.fi
  if fi.compression_method = 0 then
    storeCopyLoop cb
      (((fi.data_offset + fi.uncompressed_size) % U32) - fi.data_offset)
      fi.data_offset st
  else if fi.compression_method = 8 then
    lowzip_inflate_raw cb fuel { st with read_offset := fi.data_offset }
  else { st with have_error := true }

/-- Authoritative CRC selection of C `lowzip_get_data` (lines 1014-1020):
the local header CRC, unless the data descriptor flag is set, in which case
the CRC is read from the trailing record at `read_offset`. -/
def getDataHeaderCrc (cb : Callback) (fi : LowzipFile) (st : LowzipState) :
    Nat × LowzipState :=
  if fi.have_data_descriptor ≠ 0 then
    let pm := lowzip_read4 cb st st.read_offset
    if pm.1 = 0x08074b50 then
      lowzip_read4 cb pm.2 ((st.read_offset + 4) % U32)
    else lowzip_read4 cb pm.2 st.read_offset
  else (fi.crc32, st)

/-- Validation tail of C `lowzip_get_data` (from the delayed error check to
the end): length check, CRC computation, data descriptor handling, CRC
comparison. -/
def getDataValidate (cb : Callback) (fi : LowzipFile) (st : LowzipState) :
    LowzipState :=
  if st.have_error then st
  else if st.out.length ≠ fi.uncompressed_size then
    { st with have_error := true }
  else
    let computed_crc32 := lowzip_zip_crc32 st.out
    let ph := getDataHeaderCrc cb fi st
    if computed_crc32 ≠ ph.1 then { ph.2 with have_error := true }
    else ph.2

/-- C `lowzip_get_data`. -/
def lowzip_get_data (cb : Callback) (fuel : Nat) (st : LowzipState) :
    LowzipState :=
  let st0 := { st with have_error := false }
  getDataValidate cb st0.fi (getDataDecomp cb fuel st0)

/-- Stream for the C6 witness: a dynamic-Huffman block body whose
code-length alphabet assigns 1-bit codes to symbols 16 and 17 and whose
first decoded code-length symbol is 16 ("repeat previous"). -/
def c6cb : Callback := fun o => [0x00, 0x40, 0x02, 0x00].getD o 0x100

/-- Pure value computed by the `lowzip_read_little_endian` accumulator loop
(the state-threaded version is `readLEAux`; the value depends only on the
callback). -/
def readLEvalAux (cb : Callback) (offset : Nat) : Nat → Nat → Nat
  | 0, res => res
  | count + 1, res =>
    let t := cb ((offset + count) % U32)
    if t &&& 0x100 ≠ 0 then 0
    else readLEvalAux cb offset count (((res <<< 8) + t) % U32)

/-- Pure value of an N-byte little-endian read. -/
def readLEval (cb : Callback) (offset count : Nat) : Nat :=
  readLEvalAux cb offset count 0

/-- The authoritative CRC taken from a trailing data descriptor record at
byte offset `ro` (lowzip.c lines 1014-1020): the 4 bytes after the optional
`0x08074B50` magic, or the first 4 bytes directly. -/
def descriptorCrcVal (cb : Callback) (ro : Nat) : Nat :=
  if readLEval cb ro 4 = 0x08074b50 then readLEval cb ((ro + 4) % U32) 4
  else readLEval cb ro 4

/-! ### Relations used by the preservation lemmas -/

/-- Fields that no input-reading helper modifies. -/
def ReadFrame (st st' : LowzipState) : Prop :=
  st'.zip_length = st.zip_length ∧ st'.out = st.out ∧
  st'.out_cap = st.out_cap ∧ st'.central_dir_offset = st.central_dir_offset ∧
  st'.fi = st.fi ∧ st'.huff_lit = st.huff_lit ∧
  st'.huff_dist = st.huff_dist ∧ st'.huff_cl = st.huff_cl

/-- Output-window preservation: the capacity is untouched and the cursor
stays within the window. -/
def OutPres (st st' : LowzipState) : Prop :=
  st'.out_cap = st.out_cap ∧
  (st.out.length ≤ st.out_cap → st'.out.length ≤ st.out_cap)

/-! ### Support definitions for concrete witnesses -/

/-- Decoder state used by concrete witnesses: empty output window of
capacity 16, all cursors at zero. -/
def witnessState : LowzipState :=
  { zip_length := 0, out := [], out_cap := 16, central_dir_offset := 0,
    have_error := false, read_offset := 0, curr := 0, haveBits := 0,
    fi := { have_data_descriptor := 0, compression_method := 0, crc32 := 0,
            compressed_size := 0, uncompressed_size := 0, data_offset := 0,
            filename := [] },
    huff_lit := ⟨[], []⟩, huff_dist := ⟨[], []⟩, huff_cl := ⟨[], []⟩ }

/-- Archive bytes for the C10 witness: a data-descriptor record (magic
`0x08074B50` then CRC 0) at offset 0. -/
def c10cb : Callback := fun o => [0x50, 0x4B, 0x07, 0x08, 0, 0, 0, 0].getD o 0x100

/-- State for the C10 witness: a located STORE entry of size 0 whose
data-descriptor flag is set. -/
def c10state : LowzipState :=
  { witnessState with
    fi := { witnessState.fi with have_data_descriptor := 8 } }

/-- Stream for the C4 witness: static-Huffman bits decoding to the
literal/length symbol 287 (7-bit prefix 0x63, extra bit 1), which exceeds
285. -/
def c4cb : Callback := fun o => [0xE3, 0x00].getD o 0x100

/-- Base archive bytes shared by the two callbacks of the C8 witness: an
uncompressed block body with LEN = 3 and payload `A B C`; positions 2 and 3
(the NLEN field) are overridden separately in each callback. -/
def c8base : Callback := fun o => [3, 0, 9, 9, 65, 66, 67].getD o 0x100

/-- First C8 witness callback: NLEN bytes `0xFC 0xFF` (the correct one's
complement of LEN). -/
def c8cb1 : Callback := fun o =>
  if o = 2 then 0xFC else if o = 3 then 0xFF else c8base o

/-- Second C8 witness callback: garbage NLEN bytes `0xAA 0x55`. -/
def c8cb2 : Callback := fun o =>
  if o = 2 then 0xAA else if o = 3 then 0x55 else c8base o

/-- A callback that reports out-of-bounds exactly outside the archive: bit 8
is clear on every offset below `zl` and set on every offset at or above it.
This is the behaviour `lowzip.h` documents for the read callback. -/
def HonestCallback (cb : Callback) (zl : Nat) : Prop :=
  ∀ o : Nat, (o < zl → cb o &&& 0x100 = 0) ∧ (zl ≤ o → cb o &&& 0x100 ≠ 0)

/-- Offsets visited by a downward scan: `offset, offset - 1, ...`, stopping
below zero or after `n` entries, whichever comes first. -/
def scanList : Nat → Int → List Nat
  | 0, _ => []
  | n + 1, offset =>
    if offset < 0 then [] else offset.toNat :: scanList n (offset - 1)

/-- Spec-side candidate offsets of the end-of-central-directory scan: from
`zip_length - 22` downwards to `zip_length - 65557` or 0, whichever comes
first (65536 candidates at most). -/
def eocdScanOffsets (zl : Nat) : List Nat :=
  scanList 65536 ((zl : Int) - 22)

/-- Spec-side acceptance test for a candidate offset: the 4-byte
little-endian magic `0x06054B50` matches and `offset + 22` plus the 16-bit
comment length at `offset + 20` equals the archive length. -/
def eocdAccept (cb : Callback) (zl : Nat) (off : Nat) : Bool :=
  (readLEval cb off 4 == 0x06054b50) &&
    (off + 22 + readLEval cb (off + 20) 2 == zl)

/-- Spec-side description of `lowzip_init_archive` (following the spec text):
accept the first (highest) candidate offset passing `eocdAccept` and store
the 4-byte value at `offset + 16` into `central_dir_offset`; if no candidate
is accepted, set `have_error`. -/
def lowzip_init_archive_spec (cb : Callback) (st : LowzipState) :
    LowzipState :=
  match (eocdScanOffsets st.zip_length).find? (eocdAccept cb st.zip_length) with
  | some off =>
    { st with
      have_error := false,
      central_dir_offset := readLEval cb (off + 16) 4 }
  | none => { st with have_error := true }

/-- 22-byte archive for the C5 witness: a bare end-of-central-directory
record (magic, zeros, central directory offset 7, comment length 0). -/
def eocd22cb : Callback := fun o =>
  [0x50, 0x4B, 0x05, 0x06, 0, 0, 0, 0, 0, 0, 0, 0, 0, 0, 0, 0,
   0x07, 0, 0, 0, 0, 0].getD o 0x100

/-- State for the C5 witness: `zip_length` matching the 22-byte archive. -/
def eocd22state : LowzipState := { witnessState with zip_length := 22 }


/-! ### Frame lemmas: the reading helpers never touch the output window,
the scratch contents, or the stored offsets. -/

theorem readFrame_refl (st : LowzipState) : ReadFrame st st :=
  ⟨rfl, rfl, rfl, rfl, rfl, rfl, rfl, rfl⟩

theorem readFrame_trans {s1 s2 s3 : LowzipState}
    (h1 : ReadFrame s1 s2) (h2 : ReadFrame s2 s3) : ReadFrame s1 s3 := by
  obtain ⟨a1, a2, a3, a4, a5, a6, a7, a8⟩ := h1
  obtain ⟨b1, b2, b3, b4, b5, b6, b7, b8⟩ := h2
  exact ⟨b1.trans a1, b2.trans a2, b3.trans a3, b4.trans a4, b5.trans a5,
         b6.trans a6, b7.trans a7, b8.trans a8⟩

theorem readFrame_set_error (st : LowzipState) :
    ReadFrame st { st with have_error := true } :=
  ⟨rfl, rfl, rfl, rfl, rfl, rfl, rfl, rfl⟩

/-- `readLEAux` leaves the state untouched or merely sets the error flag. -/
theorem readLEAux_state (cb : Callback) (st : LowzipState) (offset : Nat) :
    ∀ count res, (readLEAux cb st offset count res).2 = st ∨
      (readLEAux cb st offset count res).2 = { st with have_error := true } := by
  intro count
  induction count with
  | zero => intro res; exact Or.inl rfl
  | succ c ih =>
    intro res
    simp only [readLEAux]
    split
    · exact Or.inr rfl
    · exact ih _

theorem read_little_endian_state (cb : Callback) (st : LowzipState)
    (offset count : Nat) :
    (lowzip_read_little_endian cb st offset count).2 = st ∨
      (lowzip_read_little_endian cb st offset count).2 =
        { st with have_error := true } :=
  readLEAux_state cb st offset count 0

theorem read_byte_frame (cb : Callback) (st : LowzipState) :
    ReadFrame st (lowzip_read_byte cb st).2 := by
  simp only [lowzip_read_byte]
  split
  · exact readFrame_set_error st
  · exact ⟨rfl, rfl, rfl, rfl, rfl, rfl, rfl, rfl⟩

theorem readBitsFill_frame (cb : Callback) :
    ∀ (k : Nat) (st : LowzipState) (curr haveB nbits : Nat),
      ReadFrame st (readBitsFill cb k st curr haveB nbits).2.2 := by
  intro k
  induction k with
  | zero => intro st curr haveB nbits; exact readFrame_refl st
  | succ k ih =>
    intro st curr haveB nbits
    rw [readBitsFill]
    split
    · exact readFrame_trans (read_byte_frame cb st) (ih _ _ _ _)
    · exact readFrame_refl st

theorem read_bits_frame (cb : Callback) (st : LowzipState) (nbits : Nat) :
    ReadFrame st (lowzip_read_bits cb st nbits).2 := by
  have h := readBitsFill_frame cb nbits st st.curr st.haveBits nbits
  simp only [lowzip_read_bits]
  obtain ⟨a1, a2, a3, a4, a5, a6, a7, a8⟩ := h
  exact ⟨a1, a2, a3, a4, a5, a6, a7, a8⟩

theorem read_bits_reversed_frame (cb : Callback) (st : LowzipState)
    (nbits : Nat) :
    ReadFrame st (lowzip_read_bits_reversed cb st nbits).2 :=
  read_bits_frame cb st nbits

theorem decodeHuffLoop_frame (cb : Callback) (codes : List Nat) :
    ∀ (lvls : List Nat) (st : LowzipState) (code code_start codes_offset : Nat),
      ReadFrame st (decodeHuffLoop cb codes st code code_start codes_offset lvls).2 := by
  intro lvls
  induction lvls with
  | nil => intro st _ _ _; exact readFrame_set_error st
  | cons c rest ih =>
    intro st code code_start codes_offset
    simp only [decodeHuffLoop]
    split
    · exact read_bits_frame cb st 1
    · exact readFrame_trans (read_bits_frame cb st 1) (ih _ _ _ _)

theorem decode_huffman_frame (cb : Callback) (st : LowzipState)
    (huff : HuffTable) :
    ReadFrame st (lowzip_decode_huffman cb st huff).2 :=
  decodeHuffLoop_frame cb huff.codes (huff.counts.drop 1) st 0 0 0

theorem staticLitLenDecode_frame (cb : Callback) (st : LowzipState) :
    ReadFrame st (staticLitLenDecode cb st).2 := by
  simp only [staticLitLenDecode]
  split
  · exact read_bits_reversed_frame cb st 7
  split
  · exact readFrame_trans (read_bits_reversed_frame cb st 7)
      (read_bits_frame cb _ 1)
  split
  · exact readFrame_trans (read_bits_reversed_frame cb st 7)
      (read_bits_frame cb _ 1)
  · exact readFrame_trans (read_bits_reversed_frame cb st 7)
      (read_bits_reversed_frame cb _ 2)

/-! ### Output-window preservation lemmas (C2 kit) -/

theorem outPres_refl (st : LowzipState) : OutPres st st :=
  ⟨rfl, fun h => h⟩

theorem outPres_trans {s1 s2 s3 : LowzipState}
    (h1 : OutPres s1 s2) (h2 : OutPres s2 s3) : OutPres s1 s3 :=
  ⟨h2.1.trans h1.1, fun h => h1.1 ▸ h2.2 (h1.1.symm ▸ h1.2 h)⟩

theorem outPres_of_readFrame {s1 s2 : LowzipState}
    (h : ReadFrame s1 s2) : OutPres s1 s2 :=
  ⟨h.2.2.1, fun hl => h.2.1 ▸ hl⟩

theorem write_byte_outPres (st : LowzipState) (ch : Nat) :
    OutPres st (lowzip_write_byte st ch) := by
  simp only [lowzip_write_byte]
  split
  · exact outPres_refl st
  · refine ⟨rfl, fun h => ?_⟩
    simp only [List.length_append, List.length_cons, List.length_nil]
    omega

theorem backrefCopy_out (back_dist : Nat) :
    ∀ (n : Nat) (st : LowzipState),
      (backrefCopy back_dist n st).out.length = st.out.length + n ∧
      (backrefCopy back_dist n st).out_cap = st.out_cap ∧
      (backrefCopy back_dist n st).have_error = st.have_error := by
  intro n
  induction n with
  | zero => intro st; exact ⟨rfl, rfl, rfl⟩
  | succ n ih =>
    intro st
    simp only [backrefCopy]
    obtain ⟨h1, h2, h3⟩ := ih
      { st with out := st.out ++ [st.out.getD (st.out.length - back_dist) 0] }
    refine ⟨?_, h2, h3⟩
    rw [h1]
    simp only [List.length_append, List.length_cons, List.length_nil]
    omega

theorem huffBlockStep_outPres (cb : Callback) (static_huffman : Bool)
    (st : LowzipState) : OutPres st (huffBlockStep cb static_huffman st).1 := by
  simp only [huffBlockStep]
  split
  · exact outPres_refl st
  · set p := if static_huffman then staticLitLenDecode cb st
      else lowzip_decode_huffman cb st st.huff_lit with hp
    have hf1 : ReadFrame st p.2 := by
      rw [hp]; cases static_huffman
      · simp only [Bool.false_eq_true, if_false]
        exact decode_huffman_frame cb st st.huff_lit
      · simp only [if_true]
        exact staticLitLenDecode_frame cb st
    split
    · exact outPres_trans (outPres_of_readFrame hf1) (write_byte_outPres _ _)
    split
    · exact outPres_of_readFrame hf1
    split
    · exact outPres_of_readFrame hf1
    · set q := lowzip_read_bits cb p.2 (lowzip_len_bits.getD (p.1 - 257) 0)
        with hq
      have hf2 : ReadFrame st q.2 :=
        readFrame_trans hf1 (by rw [hq]; exact read_bits_frame cb p.2 _)
      set r := if static_huffman then lowzip_read_bits_reversed cb q.2 5
        else lowzip_decode_huffman cb q.2 q.2.huff_dist with hr
      have hf3 : ReadFrame st r.2 := by
        refine readFrame_trans hf2 ?_
        rw [hr]; cases static_huffman
        · simp only [Bool.false_eq_true, if_false]
          exact decode_huffman_frame cb q.2 q.2.huff_dist
        · simp only [if_true]
          exact read_bits_reversed_frame cb q.2 5
      split
      · exact outPres_of_readFrame hf3
      · set s := lowzip_read_bits cb r.2 (lowzip_dist_bits.getD r.1 0)
          with hs
        have hf4 : ReadFrame st s.2 :=
          readFrame_trans hf3 (by rw [hs]; exact read_bits_frame cb r.2 _)
        split
        · exact outPres_of_readFrame hf4
        split
        · exact outPres_of_readFrame hf4
        · rename_i hdfar hlfar
          obtain ⟨hb1, hb2, _⟩ := backrefCopy_out
            ((lowzip_dist_base.getD r.1 0 + s.1) % U32)
            ((lowzip_len_base.getD (p.1 - 257) 0 + 3 + q.1) % U32) s.2
          refine outPres_trans (outPres_of_readFrame hf4) ⟨hb2, fun h => ?_⟩
          rw [hb1]
          omega

theorem huffBlockLoop_outPres (cb : Callback) (static_huffman : Bool) :
    ∀ (fuel : Nat) (st : LowzipState),
      OutPres st (huffBlockLoop cb static_huffman fuel st) := by
  intro fuel
  induction fuel with
  | zero => intro st; exact outPres_refl st
  | succ n ih =>
    intro st
    simp only [huffBlockLoop]
    split
    · exact huffBlockStep_outPres cb static_huffman st
    · exact outPres_trans (huffBlockStep_outPres cb static_huffman st) (ih _)

theorem block_data_outPres (cb : Callback) (static_huffman : Bool)
    (fuel : Nat) (st : LowzipState) :
    OutPres st (lowzip_decode_huffman_block_data cb static_huffman fuel st) :=
  huffBlockLoop_outPres cb static_huffman fuel st

theorem uncCopyLoop_outPres (cb : Callback) :
    ∀ (n : Nat) (st : LowzipState), OutPres st (uncCopyLoop cb n st) := by
  intro n
  induction n with
  | zero => intro st; exact outPres_refl st
  | succ n ih =>
    intro st
    simp only [uncCopyLoop]
    exact outPres_trans
      (outPres_trans (outPres_of_readFrame (read_byte_frame cb st))
        (write_byte_outPres _ _)) (ih _)

theorem reset_bitstate_frame (st : LowzipState) :
    ReadFrame st (lowzip_reset_bitstate st) :=
  ⟨rfl, rfl, rfl, rfl, rfl, rfl, rfl, rfl⟩

theorem unc_block_outPres (cb : Callback) (st : LowzipState) :
    OutPres st (lowzip_decode_uncompressed_block cb st) := by
  simp only [lowzip_decode_uncompressed_block]
  refine outPres_trans (outPres_of_readFrame ?_) (uncCopyLoop_outPres cb _ _)
  exact readFrame_trans (reset_bitstate_frame st)
    (readFrame_trans (read_byte_frame cb _)
      (readFrame_trans (read_byte_frame cb _)
        (readFrame_trans (read_byte_frame cb _) (read_byte_frame cb _))))

theorem prepare_huffman_state (st : LowzipState) (code_lens : List Nat) :
    (lowzip_prepare_huffman st code_lens).1 = st ∨
      (lowzip_prepare_huffman st code_lens).1 =
        { st with have_error := true } := by
  simp only [lowzip_prepare_huffman]
  split
  · exact Or.inr rfl
  · exact Or.inl rfl

theorem clLensLoop_frame (cb : Callback) :
    ∀ (n i : Nat) (lens : List Nat) (st : LowzipState),
      ReadFrame st (clLensLoop cb i n lens st).2 := by
  intro n
  induction n with
  | zero => intro i lens st; exact readFrame_refl st
  | succ n ih =>
    intro i lens st
    simp only [clLensLoop]
    exact readFrame_trans (read_bits_frame cb st 3) (ih _ _ _)

theorem codeLenLoop_frame (cb : Callback) (clTbl : HuffTable) (total : Nat) :
    ∀ (k : Nat) (st : LowzipState) (lens : List Nat),
      ReadFrame st (codeLenLoop cb clTbl total k st lens).1 := by
  intro k
  induction k with
  | zero => intro st lens; exact readFrame_refl st
  | succ k ih =>
    intro st lens
    simp only [codeLenLoop]
    have hf1 := decode_huffman_frame cb st clTbl
    have hf2a := readFrame_trans hf1
      (read_bits_frame cb (lowzip_decode_huffman cb st clTbl).2 2)
    have hf2b := readFrame_trans hf1
      (read_bits_frame cb (lowzip_decode_huffman cb st clTbl).2 3)
    have hf2c := readFrame_trans hf1
      (read_bits_frame cb (lowzip_decode_huffman cb st clTbl).2 7)
    repeat' split
    all_goals
      first
      | exact readFrame_refl st
      | exact hf1
      | exact hf2a
      | exact hf2b
      | exact hf2c
      | exact readFrame_trans hf1 (ih _ _)
      | exact readFrame_trans hf2a (ih _ _)
      | exact readFrame_trans hf2b (ih _ _)
      | exact readFrame_trans hf2c (ih _ _)

theorem dynHuffHeader_outPres (cb : Callback) (st : LowzipState) :
    OutPres st (dynHuffHeader cb st).1 := by
  simp only [dynHuffHeader]
  have hf : ReadFrame st (clLensLoop cb 0
      ((lowzip_read_bits cb
        (lowzip_read_bits cb (lowzip_read_bits cb st 5).2 5).2 4).1 + 4)
      (List.replicate 19 0)
      (lowzip_read_bits cb
        (lowzip_read_bits cb (lowzip_read_bits cb st 5).2 5).2 4).2).2 := by
    refine readFrame_trans (read_bits_frame cb st 5) ?_
    refine readFrame_trans (read_bits_frame cb _ 5) ?_
    refine readFrame_trans (read_bits_frame cb _ 4) ?_
    exact clLensLoop_frame cb _ _ _ _
  rcases prepare_huffman_state (clLensLoop cb 0 _ (List.replicate 19 0) _).2
      (clLensLoop cb 0 _ (List.replicate 19 0) _).1 with h | h
  all_goals
    refine outPres_trans (outPres_of_readFrame hf) ?_
  · rw [h]
    exact ⟨rfl, fun hl => hl⟩
  · rw [h]
    exact ⟨rfl, fun hl => hl⟩

theorem prepare_outPres (st : LowzipState) (ls : List Nat) :
    OutPres st (lowzip_prepare_huffman st ls).1 := by
  rcases prepare_huffman_state st ls with h | h <;> rw [h]
  · exact outPres_refl st
  · exact ⟨rfl, fun hl => hl⟩

theorem dyn_block_outPres (cb : Callback) (fuel : Nat) (st : LowzipState) :
    OutPres st (lowzip_decode_dynamic_huffman_block cb fuel st) := by
  simp only [lowzip_decode_dynamic_huffman_block]
  have h0 := dynHuffHeader_outPres cb st
  split
  · exact h0
  · split
    · rename_i st2 heq
      have e2 : (codeLenLoop cb (dynHuffHeader cb st).2.1
          ((dynHuffHeader cb st).2.2.1 + (dynHuffHeader cb st).2.2.2)
          ((dynHuffHeader cb st).2.2.1 + (dynHuffHeader cb st).2.2.2 + 1)
          (dynHuffHeader cb st).1 []).1 = st2 := by rw [heq]
      refine outPres_trans h0 (outPres_trans ?_ ⟨rfl, fun hl => hl⟩)
      exact e2 ▸ outPres_of_readFrame (codeLenLoop_frame cb _ _ _ _ _)
    · rename_i st2 lens heq
      have e2 : (codeLenLoop cb (dynHuffHeader cb st).2.1
          ((dynHuffHeader cb st).2.2.1 + (dynHuffHeader cb st).2.2.2)
          ((dynHuffHeader cb st).2.2.1 + (dynHuffHeader cb st).2.2.2 + 1)
          (dynHuffHeader cb st).1 []).1 = st2 := by rw [heq]
      have base : OutPres st st2 := outPres_trans h0
        (e2 ▸ outPres_of_readFrame (codeLenLoop_frame cb _ _ _ _ _))
      have bp1 : OutPres st2
          { (lowzip_prepare_huffman st2
              (List.take (dynHuffHeader cb st).2.2.1 lens)).1 with
            huff_lit := (lowzip_prepare_huffman st2
              (List.take (dynHuffHeader cb st).2.2.1 lens)).2 } :=
        outPres_trans (prepare_outPres st2 _) ⟨rfl, fun hl => hl⟩
      split
      · exact outPres_trans base bp1
      · have bp2 : OutPres
            { (lowzip_prepare_huffman st2
                (List.take (dynHuffHeader cb st).2.2.1 lens)).1 with
              huff_lit := (lowzip_prepare_huffman st2
                (List.take (dynHuffHeader cb st).2.2.1 lens)).2 }
            { (lowzip_prepare_huffman
                { (lowzip_prepare_huffman st2
                    (List.take (dynHuffHeader cb st).2.2.1 lens)).1 with
                  huff_lit := (lowzip_prepare_huffman st2
                    (List.take (dynHuffHeader cb st).2.2.1 lens)).2 }
                (List.drop (dynHuffHeader cb st).2.2.1 lens)).1 with
              huff_dist := (lowzip_prepare_huffman
                { (lowzip_prepare_huffman st2
                    (List.take (dynHuffHeader cb st).2.2.1 lens)).1 with
                  huff_lit := (lowzip_prepare_huffman st2
                    (List.take (dynHuffHeader cb st).2.2.1 lens)).2 }
                (List.drop (dynHuffHeader cb st).2.2.1 lens)).2 } :=
          outPres_trans (prepare_outPres _ _) ⟨rfl, fun hl => hl⟩
      
        split
        · exact outPres_trans base (outPres_trans bp1 bp2)
        · exact outPres_trans base (outPres_trans bp1
            (outPres_trans bp2 (huffBlockLoop_outPres cb false fuel _)))

theorem inflate_blocks_outPres (cb : Callback) :
    ∀ (fuel : Nat) (st : LowzipState),
      OutPres st (lowzip_decode_inflate_blocks cb fuel st) := by
  intro fuel
  induction fuel with
  | zero => intro st; exact outPres_refl st
  | succ n ih =>
    intro st
    simp only [lowzip_decode_inflate_blocks]
    split
    · exact outPres_refl st
    · have hb := read_bits_frame cb st 3
      have hblk : OutPres (lowzip_read_bits cb st 3).2
          (match (lowzip_read_bits cb st 3).1 >>> 1 with
           | 0 => lowzip_decode_uncompressed_block cb (lowzip_read_bits cb st 3).2
           | 1 => lowzip_decode_static_huffman_block cb n (lowzip_read_bits cb st 3).2
           | 2 => lowzip_decode_dynamic_huffman_block cb n (lowzip_read_bits cb st 3).2
           | _ => { (lowzip_read_bits cb st 3).2 with have_error := true }) := by
        split
        · exact unc_block_outPres cb _
        · exact huffBlockLoop_outPres cb true n _
        · exact dyn_block_outPres cb n _
        · exact ⟨rfl, fun hl => hl⟩
      split
      · exact outPres_trans (outPres_of_readFrame hb) hblk
      · exact outPres_trans (outPres_of_readFrame hb) (outPres_trans hblk (ih _))

theorem inflate_raw_outPres (cb : Callback) (fuel : Nat) (st : LowzipState) :
    OutPres st (lowzip_inflate_raw cb fuel st) :=
  outPres_trans (outPres_of_readFrame (reset_bitstate_frame st))
    (inflate_blocks_outPres cb fuel _)

theorem readLE_outPres (cb : Callback) (st : LowzipState) (offset count : Nat) :
    OutPres st (lowzip_read_little_endian cb st offset count).2 := by
  rcases read_little_endian_state cb st offset count with h | h <;> rw [h]
  · exact outPres_refl st
  · exact ⟨rfl, fun hl => hl⟩

theorem storeCopyLoop_outPres (cb : Callback) :
    ∀ (n offset : Nat) (st : LowzipState),
      OutPres st (storeCopyLoop cb n offset st) := by
  intro n
  induction n with
  | zero => intro offset st; exact outPres_refl st
  | succ n ih =>
    intro offset st
    simp only [storeCopyLoop]
    split
    · exact outPres_refl st
    · exact outPres_trans (readLE_outPres cb st offset 1)
        (outPres_trans (write_byte_outPres _ _) (ih _ _))

theorem getDataHeaderCrc_outPres (cb : Callback) (fi : LowzipFile)
    (st : LowzipState) : OutPres st (getDataHeaderCrc cb fi st).2 := by
  simp only [getDataHeaderCrc]
  split
  · split
    · exact outPres_trans (readLE_outPres cb st st.read_offset 4)
        (readLE_outPres cb _ _ 4)
    · exact outPres_trans (readLE_outPres cb st st.read_offset 4)
        (readLE_outPres cb _ _ 4)
  · exact outPres_refl st

theorem getDataValidate_outPres (cb : Callback) (fi : LowzipFile)
    (st : LowzipState) : OutPres st (getDataValidate cb fi st) := by
  simp only [getDataValidate]
  split
  · exact outPres_refl st
  split
  · exact ⟨rfl, fun hl => hl⟩
  have h := getDataHeaderCrc_outPres cb fi st
  split
  · exact outPres_trans h ⟨rfl, fun hl => hl⟩
  · exact h

theorem getDataDecomp_outPres (cb : Callback) (fuel : Nat)
    (st : LowzipState) : OutPres st (getDataDecomp cb fuel st) := by
  simp only [getDataDecomp]
  split
  · exact storeCopyLoop_outPres cb _ _ st
  split
  · exact inflate_raw_outPres cb fuel _
  · exact ⟨rfl, fun hl => hl⟩

theorem get_data_outPres (cb : Callback) (fuel : Nat) (st : LowzipState) :
    OutPres st (lowzip_get_data cb fuel st) := by
  simp only [lowzip_get_data]
  exact outPres_trans (⟨rfl, fun hl => hl⟩ :
      OutPres st { st with have_error := false })
    (outPres_trans (getDataDecomp_outPres cb fuel _)
      (getDataValidate_outPres cb _ _))

theorem initArchiveLoop_outPres (cb : Callback) (zl : Nat) :
    ∀ (n : Nat) (offset : Int) (st : LowzipState),
      OutPres st (initArchiveLoop cb zl n offset st) := by
  intro n
  induction n with
  | zero => intro offset st; exact ⟨rfl, fun hl => hl⟩
  | succ n ih =>
    intro offset st
    simp only [initArchiveLoop]
    split
    · exact ⟨rfl, fun hl => hl⟩
    split
    · exact outPres_trans (readLE_outPres cb st _ 4) (ih _ _)
    split
    · exact outPres_trans (readLE_outPres cb st _ 4)
        (outPres_trans (readLE_outPres cb _ _ 2) (ih _ _))
    · refine outPres_trans (readLE_outPres cb st _ 4)
        (outPres_trans (readLE_outPres cb _ _ 2)
          (outPres_trans (readLE_outPres cb _ _ 4) ⟨rfl, fun hl => hl⟩))

theorem init_archive_outPres (cb : Callback) (st : LowzipState) :
    OutPres st (lowzip_init_archive cb st) := by
  simp only [lowzip_init_archive]
  exact outPres_trans (⟨rfl, fun hl => hl⟩ :
      OutPres st { st with have_error := false })
    (initArchiveLoop_outPres cb _ _ _ _)

theorem nameCmpLoop_outPres (cb : Callback) (offset : Nat) (name : List Nat) :
    ∀ (k i flen : Nat) (st : LowzipState), flen - i ≤ k →
      OutPres st (nameCmpLoop cb offset name i flen st).2 := by
  intro k
  induction k with
  | zero =>
    intro i flen st hk
    rw [nameCmpLoop]
    split
    · omega
    · exact outPres_refl st
  | succ k ih =>
    intro i flen st hk
    rw [nameCmpLoop]
    dsimp only
    split
    · split
      · exact readLE_outPres cb st _ 1
      · exact outPres_trans (readLE_outPres cb st _ 1) (ih _ _ _ (by omega))
    · exact outPres_refl st

theorem fnameCopyLoop_outPres (cb : Callback) (offset : Nat) :
    ∀ (n : Nat) (acc : List Nat) (st : LowzipState),
      OutPres st (fnameCopyLoop cb offset acc n st).2 := by
  intro n
  induction n with
  | zero => intro acc st; exact outPres_refl st
  | succ n ih =>
    intro acc st
    simp only [fnameCopyLoop]
    exact outPres_trans (readLE_outPres cb st _ 1) (ih _ _)

theorem readLocalHeader_outPres (cb : Callback) (offset flen : Nat)
    (st : LowzipState) : OutPres st (readLocalHeader cb offset flen st).1 := by
  simp only [readLocalHeader]
  split
  · exact outPres_trans (readLE_outPres cb st _ 4) (readLE_outPres cb _ _ 4)
  · refine outPres_trans (readLE_outPres cb st _ 4)
      (outPres_trans (readLE_outPres cb _ _ 4)
        (outPres_trans (readLE_outPres cb _ _ 2)
          (outPres_trans (readLE_outPres cb _ _ 2)
            (outPres_trans (readLE_outPres cb _ _ 4)
              (outPres_trans (readLE_outPres cb _ _ 4)
                (outPres_trans (readLE_outPres cb _ _ 4)
                  (outPres_trans (readLE_outPres cb _ _ 2)
                    (outPres_trans (readLE_outPres cb _ _ 2)
                      (outPres_trans (fnameCopyLoop_outPres cb _ _ _ _)
                        ⟨rfl, fun hl => hl⟩)))))))))

theorem locateLoop_outPres (cb : Callback) (name : Option (List Nat)) :
    ∀ (fuel : Nat) (idx : Int) (offset : Nat) (st : LowzipState),
      OutPres st (locateLoop cb name fuel idx offset st).1 := by
  intro fuel
  induction fuel with
  | zero => intro idx offset st; exact outPres_refl st
  | succ n ih =>
    intro idx offset st
    simp only [locateLoop]
    split
    · exact readLE_outPres cb st _ 4
    · have h1 : OutPres st (lowzip_read2 cb (lowzip_read4 cb st offset).2
          ((offset + 28) % U32)).2 :=
        outPres_trans (readLE_outPres cb st _ 4) (readLE_outPres cb _ _ 2)
      have hfm : OutPres st
          (match name with
           | some nm =>
             if (lowzip_read2 cb (lowzip_read4 cb st offset).2
                 ((offset + 28) % U32)).1 = nm.length then
               nameCmpLoop cb offset nm 0
                 (lowzip_read2 cb (lowzip_read4 cb st offset).2
                   ((offset + 28) % U32)).1
                 (lowzip_read2 cb (lowzip_read4 cb st offset).2
                   ((offset + 28) % U32)).2
             else (false, (lowzip_read2 cb (lowzip_read4 cb st offset).2
               ((offset + 28) % U32)).2)
           | none => ((idx = 0 : Bool),
               (lowzip_read2 cb (lowzip_read4 cb st offset).2
                 ((offset + 28) % U32)).2)).2 := by
        split
        · split
          · exact outPres_trans h1 (nameCmpLoop_outPres cb _ _ _ _ _ _ le_rfl)
          · exact h1
        · exact h1
      split
      · exact outPres_trans hfm (readLocalHeader_outPres cb _ _ _)
      · exact outPres_trans hfm
          (outPres_trans (readLE_outPres cb _ _ 2)
            (outPres_trans (readLE_outPres cb _ _ 2) (ih _ _ _)))

theorem locate_file_outPres (cb : Callback) (fuel : Nat) (idx : Int)
    (name : Option (List Nat)) (st : LowzipState) :
    OutPres st (lowzip_locate_file cb fuel idx name st).1 := by
  simp only [lowzip_locate_file]
  have h : OutPres st (locateLoop cb name fuel idx
      st.central_dir_offset { st with have_error := false }).1 :=
    outPres_trans (⟨rfl, fun hl => hl⟩ :
        OutPres st { st with have_error := false })
      (locateLoop_outPres cb name fuel idx _ _)
  split
  · exact h
  · exact outPres_trans h ⟨rfl, fun hl => hl⟩

/-! ### Claim theorems -/

/-- C9: each of the three public ZIP operations assigns `have_error = 0` as
its first state change, so for every prior state an error flag set by an
earlier operation is cleared and the operation's entire result is
independent of the incoming flag value. -/
theorem lowzip_public_ops_clear_error (cb : Callback) (fuel : Nat)
    (idx : Int) (name : Option (List Nat)) (st : LowzipState) (b : Bool) :
    lowzip_init_archive cb { st with have_error := b } =
        lowzip_init_archive cb st ∧
    lowzip_locate_file cb fuel idx name { st with have_error := b } =
        lowzip_locate_file cb fuel idx name st ∧
    lowzip_get_data cb fuel { st with have_error := b } =
        lowzip_get_data cb fuel st :=
  ⟨rfl, rfl, rfl⟩

/-- C7: back-reference copying moves one byte at a time from
`cursor - distance` to `cursor`, advancing the cursor after each byte, so an
overlapping reference acts as run-length expansion: with exactly the two
bytes `a`, `b` emitted, a length-5 distance-2 copy appends exactly
`a`, `b`, `a`, `b`, `a`.  The second conjunct instantiates the full decoder
step on a static-Huffman stream (`0x60 0x08`: length symbol 259 = length 5,
distance symbol 1 = distance 2) after output `A B`. -/
theorem backref_overlap_rle (a b : Nat) (st : LowzipState)
    (hout : st.out = [a, b]) :
    (backrefCopy 2 5 st).out = [a, b] ++ [a, b, a, b, a] ∧
    (huffBlockStep (fun o => [0x60, 0x08].getD o 0x100) true
        { zip_length := 0, out := [65, 66], out_cap := 7,
          central_dir_offset := 0, have_error := false, read_offset := 0,
          curr := 0, haveBits := 0,
          fi := { have_data_descriptor := 0, compression_method := 0,
                  crc32 := 0, compressed_size := 0, uncompressed_size := 0,
                  data_offset := 0, filename := [] },
          huff_lit := ⟨[], []⟩, huff_dist := ⟨[], []⟩,
          huff_cl := ⟨[], []⟩ }).1.out = [65, 66] ++ [65, 66, 65, 66, 65] := by
  constructor
  · simp [backrefCopy, hout]
  · rfl

/-! ### C8: the NLEN field of an uncompressed block is never interpreted -/

theorem read_byte_congr (cb1 cb2 : Callback) (st : LowzipState)
    (h : cb1 st.read_offset = cb2 st.read_offset) :
    lowzip_read_byte cb1 st = lowzip_read_byte cb2 st := by
  simp only [lowzip_read_byte, h]

theorem write_byte_read_offset (st : LowzipState) (ch : Nat) :
    (lowzip_write_byte st ch).read_offset = st.read_offset := by
  simp only [lowzip_write_byte]
  split <;> rfl

/-- Once the sequential reader sits on an out-of-bounds offset where the two
callbacks agree, the copy loop behaves identically under both. -/
theorem uncCopyLoop_stuck (cb1 cb2 : Callback) (r : Nat)
    (hv : cb1 r = cb2 r) (hoob : ¬cb1 r &&& 0x100 = 0) :
    ∀ (n : Nat) (st : LowzipState), st.read_offset = r →
      uncCopyLoop cb1 n st = uncCopyLoop cb2 n st := by
  intro n
  induction n with
  | zero => intro st _; rfl
  | succ n ih =>
    intro st hro
    have hc1 : ¬cb1 st.read_offset &&& 0x100 = 0 := by rw [hro]; exact hoob
    simp only [uncCopyLoop]
    rw [read_byte_congr cb1 cb2 st (by rw [hro, hv])]
    apply ih
    rw [write_byte_read_offset]
    have hc2 : ¬cb2 st.read_offset &&& 0x100 = 0 := by
      rw [hro, ← hv]; exact hoob
    simp only [lowzip_read_byte, if_pos (by simpa using hc2)]
    exact hro

/-- If the two callbacks agree on the whole forward read window of the copy
loop (all offsets other than the two excluded positions), the loop behaves
identically under both. -/
theorem uncCopyLoop_window (cb1 cb2 : Callback) (bad2 bad3 : Nat)
    (hagree : ∀ o, o ≠ bad2 → o ≠ bad3 → cb1 o = cb2 o) :
    ∀ (n : Nat) (st : LowzipState), st.read_offset < U32 →
      (∀ i, i < n → (st.read_offset + i) % U32 ≠ bad2 ∧
        (st.read_offset + i) % U32 ≠ bad3) →
      uncCopyLoop cb1 n st = uncCopyLoop cb2 n st := by
  intro n
  induction n with
  | zero => intro st _ _; rfl
  | succ n ih =>
    intro st hro hwin
    have h00 : (st.read_offset + 0) % U32 = st.read_offset := by
      rw [Nat.add_zero]; exact Nat.mod_eq_of_lt hro
    have hne := hwin 0 (Nat.succ_pos n)
    rw [h00] at hne
    have hv : cb1 st.read_offset = cb2 st.read_offset :=
      hagree _ hne.1 hne.2
    simp only [uncCopyLoop]
    rw [read_byte_congr cb1 cb2 st hv]
    have hU : 0 < U32 := by norm_num [U32]
    by_cases hoob : cb2 st.read_offset &&& 0x100 = 0
    · apply ih
      · rw [write_byte_read_offset]
        simp only [lowzip_read_byte, if_neg (not_not_intro hoob)]
        exact Nat.mod_lt _ hU
      · intro i hi
        rw [write_byte_read_offset]
        simp only [lowzip_read_byte, if_neg (not_not_intro hoob)]
        rw [Nat.mod_add_mod]
        have hw := hwin (1 + i) (by omega)
        rw [show st.read_offset + 1 + i = st.read_offset + (1 + i) by omega]
        exact hw
    · apply ih
      · rw [write_byte_read_offset]
        simp only [lowzip_read_byte, if_pos hoob]
        exact hro
      · intro i hi
        rw [write_byte_read_offset]
        simp only [lowzip_read_byte, if_pos hoob]
        exact hwin i (by omega)

/-- C8: decoding an uncompressed block discards buffered bits without moving
the byte read offset, reads the 16-bit little-endian LEN, consumes the two
NLEN bytes without using their values, and copies LEN bytes; hence two
archives that differ only in the two NLEN bytes (both being actual archive
bytes: in bounds, byte-valued) produce identical output, error state, and
final decoder state. -/
theorem nlen_not_validated (cb1 cb2 : Callback) (st : LowzipState)
    (hagree : ∀ o, o ≠ (st.read_offset + 2) % U32 →
      o ≠ (st.read_offset + 3) % U32 → cb1 o = cb2 o)
    (h12 : cb1 ((st.read_offset + 2) % U32) &&& 0x100 = 0)
    (h13 : cb1 ((st.read_offset + 3) % U32) &&& 0x100 = 0)
    (h22 : cb2 ((st.read_offset + 2) % U32) &&& 0x100 = 0)
    (h23 : cb2 ((st.read_offset + 3) % U32) &&& 0x100 = 0)
    (hbyte : ∀ o, cb1 o &&& 0x100 = 0 → cb1 o < 256) :
    lowzip_decode_uncompressed_block cb1 st =
      lowzip_decode_uncompressed_block cb2 st := by
  have hU : (0 : Nat) < U32 := by norm_num [U32]
  have hA2 : st.read_offset ≠ (st.read_offset + 2) % U32 := by
    simp only [U32]; omega
  have hA3 : st.read_offset ≠ (st.read_offset + 3) % U32 := by
    simp only [U32]; omega
  have hB2 : (st.read_offset + 1) % U32 ≠ (st.read_offset + 2) % U32 := by
    simp only [U32]; omega
  have hB3 : (st.read_offset + 1) % U32 ≠ (st.read_offset + 3) % U32 := by
    simp only [U32]; omega
  have hv0 : cb1 st.read_offset = cb2 st.read_offset := hagree _ hA2 hA3
  have hv1 : cb1 ((st.read_offset + 1) % U32) =
      cb2 ((st.read_offset + 1) % U32) := hagree _ hB2 hB3
  have hm1 : ((st.read_offset + 1) % U32 + 1) % U32 =
      (st.read_offset + 2) % U32 := by simp only [U32]; omega
  have hm2 : ((st.read_offset + 2) % U32 + 1) % U32 =
      (st.read_offset + 3) % U32 := by simp only [U32]; omega
  have hm3 : ((st.read_offset + 3) % U32 + 1) % U32 =
      (st.read_offset + 4) % U32 := by simp only [U32]; omega
  by_cases hA : cb1 st.read_offset &&& 0x100 = 0
  · by_cases hB : cb1 ((st.read_offset + 1) % U32) &&& 0x100 = 0
    · -- both LEN bytes in bounds: NLEN reads advance past the descriptor
      have hA' : cb2 st.read_offset &&& 0x100 = 0 := by rw [← hv0]; exact hA
      have hB' : cb2 ((st.read_offset + 1) % U32) &&& 0x100 = 0 := by
        rw [← hv1]; exact hB
      have hb0 : cb1 st.read_offset < 256 := hbyte _ hA
      have hb1 : cb1 ((st.read_offset + 1) % U32) < 256 := hbyte _ hB
      simp only [lowzip_decode_uncompressed_block, lowzip_reset_bitstate,
        lowzip_read_byte, hv0, hv1, if_neg (not_not_intro hA'),
        if_neg (not_not_intro hB'), hm1, if_neg (not_not_intro h22),
        if_neg (not_not_intro h12), hm2, if_neg (not_not_intro h13),
        if_neg (not_not_intro h23), hm3]
      apply uncCopyLoop_window cb1 cb2 _ _ hagree
      · exact Nat.mod_lt _ hU
      · intro i hi
        have hilt : i < 65536 := by
          have h1 : cb2 st.read_offset < 256 := hv0 ▸ hb0
          have h2 : cb2 ((st.read_offset + 1) % U32) < 256 := hv1 ▸ hb1
          have : (cb2 st.read_offset +
              (cb2 ((st.read_offset + 1) % U32) <<< 8)) % U32 < 65536 := by
            have := Nat.mod_le (cb2 st.read_offset +
              (cb2 ((st.read_offset + 1) % U32) <<< 8)) U32
            simp only [Nat.shiftLeft_eq] at *
            omega
          omega
        constructor
        · rw [Nat.mod_add_mod]
          simp only [U32] at *
          omega
        · rw [Nat.mod_add_mod]
          simp only [U32] at *
          omega
    · -- second LEN byte out of bounds: the reader is stuck at its offset
      have hA' : cb2 st.read_offset &&& 0x100 = 0 := by rw [← hv0]; exact hA
      have hB' : ¬cb2 ((st.read_offset + 1) % U32) &&& 0x100 = 0 := by
        rw [← hv1]; exact hB
      simp only [lowzip_decode_uncompressed_block, lowzip_reset_bitstate,
        lowzip_read_byte, hv0, hv1, if_neg (not_not_intro hA'), if_pos hB']
      exact uncCopyLoop_stuck cb1 cb2 _ hv1 hB _ _ rfl
  · -- first LEN byte out of bounds: everything is stuck at read_offset
    have hA' : ¬cb2 st.read_offset &&& 0x100 = 0 := by rw [← hv0]; exact hA
    simp only [lowzip_decode_uncompressed_block, lowzip_reset_bitstate,
      lowzip_read_byte, hv0, if_pos hA']
    exact uncCopyLoop_stuck cb1 cb2 _ hv0 hA _ _ rfl

/-- C2: the output cursor never passes the output end.  `lowzip_write_byte`
refuses the write and sets `have_error` when the window is full, and every
operation — the back-reference copy (inside `huffBlockStep`, guarded by the
space check), the block-data loop, raw inflate, and the three public ZIP
operations — preserves `output_next ≤ output_end` for every callback
(including ones that synthesise the OOB sentinel arbitrarily often) and
every fuel. -/
theorem output_window_invariant (cb : Callback) (static_huffman : Bool)
    (fuel : Nat) (idx : Int) (name : Option (List Nat)) (ch : Nat)
    (st : LowzipState) (hinv : st.out.length ≤ st.out_cap) :
    (st.out.length ≥ st.out_cap →
      lowzip_write_byte st ch = { st with have_error := true }) ∧
    (lowzip_write_byte st ch).out.length ≤ st.out_cap ∧
    (huffBlockStep cb static_huffman st).1.out.length ≤ st.out_cap ∧
    (lowzip_decode_huffman_block_data cb static_huffman fuel st).out.length ≤
      st.out_cap ∧
    (lowzip_inflate_raw cb fuel st).out.length ≤ st.out_cap ∧
    (lowzip_get_data cb fuel st).out.length ≤ st.out_cap ∧
    (lowzip_init_archive cb st).out.length ≤ st.out_cap ∧
    (lowzip_locate_file cb fuel idx name st).1.out.length ≤ st.out_cap := by
  refine ⟨fun h => ?_, (write_byte_outPres st ch).2 hinv,
    (huffBlockStep_outPres cb static_huffman st).2 hinv,
    (block_data_outPres cb static_huffman fuel st).2 hinv,
    (inflate_raw_outPres cb fuel st).2 hinv,
    (get_data_outPres cb fuel st).2 hinv,
    (init_archive_outPres cb st).2 hinv,
    (locate_file_outPres cb fuel idx name st).2 hinv⟩
  simp only [lowzip_write_byte, if_pos h]

/-- Witness for `output_window_invariant` at a concrete state (empty output,
capacity 16) and a concrete truncated archive callback. -/
theorem output_window_invariant_witness :
    witnessState.out.length ≤ witnessState.out_cap ∧
    ((lowzip_write_byte witnessState 65).out.length ≤ witnessState.out_cap ∧
      (lowzip_get_data c8base 5 witnessState).out.length ≤
        witnessState.out_cap) :=
  ⟨by decide,
   (output_window_invariant c8base true 5 0 none 65 witnessState
      (by decide)).2.1,
   (output_window_invariant c8base true 5 0 none 65 witnessState
      (by decide)).2.2.2.2.2.1⟩

/-! ### C4: error handling in the back-reference path -/

theorem litlen_decode_frame (cb : Callback) (static_huffman : Bool)
    (st st1 : LowzipState) (t : Nat)
    (hdec : (if static_huffman then staticLitLenDecode cb st
             else lowzip_decode_huffman cb st st.huff_lit) = (t, st1)) :
    ReadFrame st st1 := by
  cases static_huffman
  · simp only [Bool.false_eq_true, if_false] at hdec
    have h := decode_huffman_frame cb st st.huff_lit
    rw [hdec] at h
    exact h
  · simp only [if_true] at hdec
    have h := staticLitLenDecode_frame cb st
    rw [hdec] at h
    exact h

theorem dist_decode_frame (cb : Callback) (static_huffman : Bool)
    (st st1 : LowzipState) (d : Nat)
    (hdec : (if static_huffman then lowzip_read_bits_reversed cb st 5
             else lowzip_decode_huffman cb st st.huff_dist) = (d, st1)) :
    ReadFrame st st1 := by
  cases static_huffman
  · simp only [Bool.false_eq_true, if_false] at hdec
    have h := decode_huffman_frame cb st st.huff_dist
    rw [hdec] at h
    exact h
  · simp only [if_true] at hdec
    have h := read_bits_reversed_frame cb st 5
    rw [hdec] at h
    exact h

theorem read_bits_frame_of_eq (cb : Callback) (st st1 : LowzipState)
    (n v : Nat) (h : lowzip_read_bits cb st n = (v, st1)) :
    ReadFrame st st1 := by
  have hf := read_bits_frame cb st n
  rw [h] at hf
  exact hf

/-- C4: in the literal/length/distance inner loop, a length symbol above 285
is a format error; for a back-reference (257 ≤ S ≤ 285) a distance symbol
above 29 is a format error; a distance reaching before the output start or a
length exceeding the remaining output space is an error; in each case the
block aborts with `have_error` set and without writing any output byte. -/
theorem backref_error_handling (cb : Callback) (static_huffman : Bool)
    (st st1 st2 st3 st4 : LowzipState) (t e1 d e2 : Nat)
    (hnoerr : st.have_error = false)
    (hdec : (if static_huffman then staticLitLenDecode cb st
             else lowzip_decode_huffman cb st st.huff_lit) = (t, st1))
    (hlen : lowzip_read_bits cb st1 (lowzip_len_bits.getD (t - 257) 0) =
      (e1, st2))
    (hdist : (if static_huffman then lowzip_read_bits_reversed cb st2 5
              else lowzip_decode_huffman cb st2 st2.huff_dist) = (d, st3))
    (hext : lowzip_read_bits cb st3 (lowzip_dist_bits.getD d 0) = (e2, st4)) :
    (t > 285 →
      huffBlockStep cb static_huffman st =
        ({ st1 with have_error := true }, true) ∧ st1.out = st.out) ∧
    (257 ≤ t → t ≤ 285 → d > 29 →
      huffBlockStep cb static_huffman st =
        ({ st3 with have_error := true }, true) ∧ st3.out = st.out) ∧
    (257 ≤ t → t ≤ 285 → d ≤ 29 →
      (((lowzip_dist_base.getD d 0 + e2) % U32 : Nat) : Int) >
        (st4.out.length : Int) →
      huffBlockStep cb static_huffman st =
        ({ st4 with have_error := true }, true) ∧ st4.out = st.out) ∧
    (257 ≤ t → t ≤ 285 → d ≤ 29 →
      ¬((((lowzip_dist_base.getD d 0 + e2) % U32 : Nat) : Int) >
        (st4.out.length : Int)) →
      (((lowzip_len_base.getD (t - 257) 0 + 3 + e1) % U32 : Nat) : Int) >
        (st4.out_cap : Int) - (st4.out.length : Int) →
      huffBlockStep cb static_huffman st =
        ({ st4 with have_error := true }, true) ∧ st4.out = st.out) := by
  have hfr1 : ReadFrame st st1 := litlen_decode_frame cb static_huffman st st1 t hdec
  have hfr2 : ReadFrame st1 st2 := read_bits_frame_of_eq cb st1 st2 _ _ hlen
  have hfr3 : ReadFrame st2 st3 := dist_decode_frame cb static_huffman st2 st3 d hdist
  have hfr4 : ReadFrame st3 st4 := read_bits_frame_of_eq cb st3 st4 _ _ hext
  refine ⟨?_, ?_, ?_, ?_⟩
  · intro h285
    refine ⟨?_, hfr1.2.1⟩
    simp only [huffBlockStep, hnoerr, Bool.false_eq_true, if_false, hdec,
      if_neg (by omega : ¬t < 256), if_neg (by omega : ¬t = 256),
      if_pos h285]
  · intro hlo hhi hd29
    refine ⟨?_, ((readFrame_trans hfr1 (readFrame_trans hfr2 hfr3)).2.1)⟩
    simp only [huffBlockStep, hnoerr, Bool.false_eq_true, if_false, hdec,
      if_neg (by omega : ¬t < 256), if_neg (by omega : ¬t = 256),
      if_neg (by omega : ¬t > 285), hlen, hdist, if_pos hd29]
  · intro hlo hhi hd29 hdist_far
    refine ⟨?_, ((readFrame_trans hfr1 (readFrame_trans hfr2
      (readFrame_trans hfr3 hfr4))).2.1)⟩
    simp only [huffBlockStep, hnoerr, Bool.false_eq_true, if_false, hdec,
      if_neg (by omega : ¬t < 256), if_neg (by omega : ¬t = 256),
      if_neg (by omega : ¬t > 285), hlen, hdist, if_neg (by omega : ¬d > 29),
      hext, if_pos hdist_far]
  · intro hlo hhi hd29 hdist_ok hlen_far
    refine ⟨?_, ((readFrame_trans hfr1 (readFrame_trans hfr2
      (readFrame_trans hfr3 hfr4))).2.1)⟩
    simp only [huffBlockStep, hnoerr, Bool.false_eq_true, if_false, hdec,
      if_neg (by omega : ¬t < 256), if_neg (by omega : ¬t = 256),
      if_neg (by omega : ¬t > 285), hlen, hdist, if_neg (by omega : ¬d > 29),
      hext, if_neg hdist_ok, if_pos hlen_far]

/-- Witness for `backref_error_handling`: on a concrete stream whose first
symbol decodes to 287, the step aborts with `have_error` set and no output
written. -/
theorem backref_error_handling_witness :
    (staticLitLenDecode c4cb witnessState).1 > 285 ∧
    (huffBlockStep c4cb true witnessState =
      ({ (staticLitLenDecode c4cb witnessState).2 with have_error := true },
        true) ∧
      (staticLitLenDecode c4cb witnessState).2.out = witnessState.out) :=
  ⟨by decide,
   (backref_error_handling c4cb true witnessState
      (staticLitLenDecode c4cb witnessState).2 _ _ _
      (staticLitLenDecode c4cb witnessState).1
      _ _ _ rfl rfl rfl rfl rfl).1 (by decide)⟩

/-- Witness for `nlen_not_validated`: two concrete archives differing only
in the NLEN bytes decode to equal states. -/
theorem nlen_not_validated_witness :
    lowzip_decode_uncompressed_block c8cb1 witnessState =
      lowzip_decode_uncompressed_block c8cb2 witnessState := by
  apply nlen_not_validated
  · intro o h2 h3
    have e2 : (witnessState.read_offset + 2) % U32 = 2 := by decide
    have e3 : (witnessState.read_offset + 3) % U32 = 3 := by decide
    rw [e2] at h2
    rw [e3] at h3
    simp only [c8cb1, c8cb2, if_neg h2, if_neg h3]
  · decide
  · decide
  · decide
  · decide
  · intro o h
    by_cases h2 : o = 2
    · subst h2; decide
    by_cases h3 : o = 3
    · subst h3; decide
    simp only [c8cb1, if_neg h2, if_neg h3, c8base] at h ⊢
    match o, h with
    | 0, _ => decide
    | 1, _ => decide
    | 4, _ => decide
    | 5, _ => decide
    | 6, _ => decide
    | n + 7, h => simp [List.getD] at h

/-- Witness for `backref_overlap_rle` at the concrete bytes `A` (65) and
`B` (66). -/
theorem backref_overlap_rle_witness :
    (backrefCopy 2 5
        { zip_length := 0, out := [65, 66], out_cap := 7,
          central_dir_offset := 0, have_error := false, read_offset := 0,
          curr := 0, haveBits := 0,
          fi := { have_data_descriptor := 0, compression_method := 0,
                  crc32 := 0, compressed_size := 0, uncompressed_size := 0,
                  data_offset := 0, filename := [] },
          huff_lit := ⟨[], []⟩, huff_dist := ⟨[], []⟩,
          huff_cl := ⟨[], []⟩ }).out = [65, 66] ++ [65, 66, 65, 66, 65] :=
  (backref_overlap_rle 65 66 _ rfl).1

/-! ### C6: code-length expansion of a dynamic-Huffman block -/

theorem dynHuffHeader_out (cb : Callback) (st : LowzipState) :
    (dynHuffHeader cb st).1.out = st.out ∧
    (dynHuffHeader cb st).2.2.1 ≥ 257 := by
  simp only [dynHuffHeader]
  constructor
  · have hf : ReadFrame st (clLensLoop cb 0
        ((lowzip_read_bits cb
          (lowzip_read_bits cb (lowzip_read_bits cb st 5).2 5).2 4).1 + 4)
        (List.replicate 19 0)
        (lowzip_read_bits cb
          (lowzip_read_bits cb (lowzip_read_bits cb st 5).2 5).2 4).2).2 := by
      refine readFrame_trans (read_bits_frame cb st 5) ?_
      refine readFrame_trans (read_bits_frame cb _ 5) ?_
      refine readFrame_trans (read_bits_frame cb _ 4) ?_
      exact clLensLoop_frame cb _ _ _ _
    rcases prepare_huffman_state (clLensLoop cb 0 _ (List.replicate 19 0) _).2
        (clLensLoop cb 0 _ (List.replicate 19 0) _).1 with h | h <;> rw [h] <;>
      exact hf.2.1
  · exact Nat.le_add_left 257 _

theorem codeLenLoop_some_exact (cb : Callback) (clTbl : HuffTable)
    (total : Nat) :
    ∀ (k : Nat) (st : LowzipState) (lens : List Nat) (stO : LowzipState)
      (lensO : List Nat),
      codeLenLoop cb clTbl total k st lens = (stO, some lensO) →
      lensO.length = total := by
  intro k
  induction k with
  | zero =>
    intro st lens stO lensO h
    simp only [codeLenLoop, Prod.mk.injEq] at h
    exact absurd h.2 (by simp)
  | succ k ih =>
    intro st lens stO lensO h
    rw [codeLenLoop] at h
    dsimp only at h
    split at h
    · rename_i hdone
      have h2 := congrArg Prod.snd h
      simp only [Option.some.injEq] at h2
      rw [← h2]
      exact hdone
    · repeat' split at h
      all_goals
        first
        | exact ih _ _ _ _ h
        | exact absurd (congrArg Prod.snd h) (by simp)

/-- C6: in dynamic-Huffman setup, (a) a first code-length symbol of 16 sets
`have_error` before any code length is emitted and no block data is decoded;
(b) a repeat run (symbol 16, 17 or 18) that would write past
`nlit + ndist` entries aborts the loop with the format-error result, which
the block decoder turns into `have_error`; (c) the loop exits normally only
with exactly `nlit + ndist` code lengths emitted. -/
theorem dyn_codelen_exactness (cb : Callback) (fuel : Nat)
    (st st1 st2 : LowzipState) (clTbl : HuffTable) (nlit ndist : Nat)
    (hhdr : dynHuffHeader cb st = (st1, clTbl, nlit, ndist))
    (hok : st1.have_error = false) :
    (lowzip_decode_huffman cb st1 clTbl = (16, st2) →
      lowzip_decode_dynamic_huffman_block cb fuel st =
        { st2 with have_error := true } ∧ st2.out = st.out) ∧
    (∀ (k : Nat) (stA : LowzipState) (lens : List Nat) (t x : Nat)
      (stB stC : LowzipState),
      lens.length ≠ nlit + ndist →
      lowzip_decode_huffman cb stA clTbl = (t, stB) →
      ((t = 16 → lens.length ≠ 0 →
        lowzip_read_bits cb stB 2 = (x, stC) →
        lens.length + (3 + x) > nlit + ndist →
        codeLenLoop cb clTbl (nlit + ndist) (k + 1) stA lens = (stC, none)) ∧
       (t = 17 →
        lowzip_read_bits cb stB 3 = (x, stC) →
        lens.length + (3 + x) > nlit + ndist →
        codeLenLoop cb clTbl (nlit + ndist) (k + 1) stA lens = (stC, none)) ∧
       (t = 18 →
        lowzip_read_bits cb stB 7 = (x, stC) →
        lens.length + (11 + x) > nlit + ndist →
        codeLenLoop cb clTbl (nlit + ndist) (k + 1) stA lens = (stC, none)))) ∧
    (∀ (stX : LowzipState),
      codeLenLoop cb clTbl (nlit + ndist) (nlit + ndist + 1) st1 [] =
        (stX, none) →
      lowzip_decode_dynamic_huffman_block cb fuel st =
        { stX with have_error := true }) ∧
    (∀ (k : Nat) (stA stO : LowzipState) (lens lensO : List Nat),
      codeLenLoop cb clTbl (nlit + ndist) k stA lens = (stO, some lensO) →
      lensO.length = nlit + ndist) := by
  have hout := dynHuffHeader_out cb st
  rw [hhdr] at hout
  refine ⟨?_, ?_, ?_, ?_⟩
  · intro hdec
    have hnlit : nlit ≥ 257 := by
      have h := (dynHuffHeader_out cb st).2
      rw [hhdr] at h
      simpa using h
    constructor
    · simp only [lowzip_decode_dynamic_huffman_block, hhdr, hok,
        Bool.false_eq_true, if_false]
      rw [codeLenLoop]
      simp [hdec, show ¬(([] : List Nat).length = nlit + ndist) by
        simp only [List.length_nil]; omega]
      rw [if_neg (show ¬(0 : Nat) = nlit + ndist by omega)]
    · have hfr := decode_huffman_frame cb st1 clTbl
      rw [hdec] at hfr
      exact hfr.2.1.trans hout.1
  · intro k stA lens t x stB stC hne hdec
    refine ⟨?_, ?_, ?_⟩
    · intro ht hlen hbits hover
      subst ht
      rw [codeLenLoop]
      rw [if_neg hne]
      simp only [hdec, if_neg (by omega : ¬(16 : Nat) < 16), if_pos rfl,
        if_neg hlen, hbits]
      have hrep : emitRep lens (nlit + ndist)
          (lens.getD (lens.length - 1) 0) (3 + x) = none := by
        simp only [emitRep, ite_eq_right_iff]
        intro hle
        omega
      rw [hrep]
      simp
    · intro ht hbits hover
      subst ht
      rw [codeLenLoop]
      rw [if_neg hne]
      simp only [hdec, if_neg (by omega : ¬(17 : Nat) < 16),
        if_neg (by omega : ¬(17 : Nat) = 16), if_pos rfl, hbits]
      have hrep : emitRep lens (nlit + ndist) 0 (3 + x) = none := by
        simp only [emitRep, ite_eq_right_iff]
        intro hle
        omega
      rw [hrep]
      simp
    · intro ht hbits hover
      subst ht
      rw [codeLenLoop]
      rw [if_neg hne]
      simp only [hdec, if_neg (by omega : ¬(18 : Nat) < 16),
        if_neg (by omega : ¬(18 : Nat) = 16),
        if_neg (by omega : ¬(18 : Nat) = 17), if_pos rfl, hbits]
      have hrep : emitRep lens (nlit + ndist) 0 (11 + x) = none := by
        simp only [emitRep, ite_eq_right_iff]
        intro hle
        omega
      rw [hrep]
      simp
  · intro stX hloop
    simp only [lowzip_decode_dynamic_huffman_block, hhdr, hok,
      Bool.false_eq_true, if_false, hloop]
  · intro k stA stO lens lensO h
    exact codeLenLoop_some_exact cb clTbl (nlit + ndist) k stA lens stO lensO h

/-- Witness for `dyn_codelen_exactness`: a concrete dynamic block whose
first code-length symbol is 16 makes the block decoder set `have_error`
without emitting anything. -/
theorem dyn_codelen_exactness_witness :
    (lowzip_decode_huffman c6cb (dynHuffHeader c6cb witnessState).1
        (dynHuffHeader c6cb witnessState).2.1).1 = 16 ∧
    (lowzip_decode_dynamic_huffman_block c6cb 5 witnessState =
      { (lowzip_decode_huffman c6cb (dynHuffHeader c6cb witnessState).1
          (dynHuffHeader c6cb witnessState).2.1).2 with have_error := true } ∧
     (lowzip_decode_huffman c6cb (dynHuffHeader c6cb witnessState).1
        (dynHuffHeader c6cb witnessState).2.1).2.out = witnessState.out) :=
  ⟨by decide,
   (dyn_codelen_exactness c6cb 5 witnessState _ _ _ _ _ rfl (by decide)).1 rfl⟩

/-! ### C1 and C10: get_data postconditions -/

theorem readLEAux_val (cb : Callback) (st : LowzipState) (offset : Nat) :
    ∀ (count res : Nat),
      (readLEAux cb st offset count res).1 = readLEvalAux cb offset count res := by
  intro count
  induction count with
  | zero => intro res; rfl
  | succ c ih =>
    intro res
    simp only [readLEAux, readLEvalAux]
    split
    · rfl
    · exact ih _

theorem read4_val (cb : Callback) (st : LowzipState) (offset : Nat) :
    (lowzip_read4 cb st offset).1 = readLEval cb offset 4 :=
  readLEAux_val cb st offset 4 0

theorem read4_state (cb : Callback) (st : LowzipState) (offset : Nat) :
    (lowzip_read4 cb st offset).2 = st ∨
      (lowzip_read4 cb st offset).2 = { st with have_error := true } :=
  read_little_endian_state cb st offset 4

theorem getDataHeaderCrc_state (cb : Callback) (fi : LowzipFile)
    (st : LowzipState) :
    (getDataHeaderCrc cb fi st).2 = st ∨
      (getDataHeaderCrc cb fi st).2 = { st with have_error := true } := by
  simp only [getDataHeaderCrc]
  split
  · split
    · rcases read4_state cb st st.read_offset with h | h <;> rw [h]
      · rcases read4_state cb st ((st.read_offset + 4) % U32) with h2 | h2 <;>
          rw [h2]
        · exact Or.inl rfl
        · exact Or.inr rfl
      · rcases read4_state cb { st with have_error := true }
            ((st.read_offset + 4) % U32) with h2 | h2 <;> rw [h2]
        · exact Or.inr rfl
        · exact Or.inr rfl
    · rcases read4_state cb st st.read_offset with h | h <;> rw [h]
      · rcases read4_state cb st st.read_offset with h2 | h2 <;> rw [h2]
        · exact Or.inl rfl
        · exact Or.inr rfl
      · rcases read4_state cb { st with have_error := true }
            st.read_offset with h2 | h2 <;> rw [h2]
        · exact Or.inr rfl
        · exact Or.inr rfl
  · exact Or.inl rfl

theorem getDataHeaderCrc_val (cb : Callback) (fi : LowzipFile)
    (st : LowzipState) (hdd : fi.have_data_descriptor ≠ 0) :
    (getDataHeaderCrc cb fi st).1 = descriptorCrcVal cb st.read_offset := by
  simp only [getDataHeaderCrc, if_pos hdd, descriptorCrcVal]
  rw [read4_val]
  split
  · exact read4_val cb _ _
  · exact read4_val cb _ _

/-- What an error-free return from the validation tail of `lowzip_get_data`
guarantees: the output is untouched by validation, its length equals the
header uncompressed size, and its CRC-32 equals the selected authoritative
header CRC. -/
theorem getDataValidate_spec (cb : Callback) (fi : LowzipFile)
    (st : LowzipState)
    (hok : (getDataValidate cb fi st).have_error = false) :
    (getDataValidate cb fi st).out = st.out ∧
    st.out.length = fi.uncompressed_size ∧
    lowzip_zip_crc32 st.out = (getDataHeaderCrc cb fi st).1 := by
  revert hok
  simp only [getDataValidate]
  split
  · rename_i herr
    intro hok
    exact absurd (hok ▸ herr) (by simp)
  split
  · intro hok
    simp at hok
  · rename_i hlen
    split
    · intro hok
      simp at hok
    · rename_i hcrc
      intro _
      refine ⟨?_, by omega, by omega⟩
      rcases getDataHeaderCrc_state cb fi st with h | h <;> rw [h]

theorem read1_state (cb : Callback) (st : LowzipState) (offset : Nat) :
    (lowzip_read1 cb st offset).2 = st ∨
      (lowzip_read1 cb st offset).2 = { st with have_error := true } :=
  read_little_endian_state cb st offset 1

theorem storeCopyLoop_read_offset (cb : Callback) :
    ∀ (n offset : Nat) (st : LowzipState),
      (storeCopyLoop cb n offset st).read_offset = st.read_offset := by
  intro n
  induction n with
  | zero => intro offset st; rfl
  | succ n ih =>
    intro offset st
    simp only [storeCopyLoop]
    split
    · rfl
    · rw [ih]
      rw [write_byte_read_offset]
      rcases read1_state cb st offset with h | h <;> rw [h]

theorem getDataValidate_read_offset (cb : Callback) (fi : LowzipFile)
    (st : LowzipState) :
    (getDataValidate cb fi st).read_offset = st.read_offset := by
  simp only [getDataValidate]
  split
  · rfl
  split
  · rfl
  · rcases getDataHeaderCrc_state cb fi st with h | h <;>
      split <;> rw [h]

/-- C1: if `lowzip_get_data` returns with `have_error` clear then the bytes
written to the output window have length exactly the header
`uncompressed_size`, and their CRC-32 (`lowzip_zip_crc32`, polynomial
0xEDB88320 with initial/final XOR 0xFFFFFFFF) equals the authoritative CRC
selected by `getDataHeaderCrc`: the local header CRC field, or, when the
header's bit-3 data-descriptor flag was set, the CRC read from the trailing
record at the decoder's `read_offset`. -/
theorem get_data_postcondition (cb : Callback) (fuel : Nat)
    (st : LowzipState)
    (hok : (lowzip_get_data cb fuel st).have_error = false) :
    (lowzip_get_data cb fuel st).out.length = st.fi.uncompressed_size ∧
    lowzip_zip_crc32 (lowzip_get_data cb fuel st).out =
      (getDataHeaderCrc cb st.fi
        (getDataDecomp cb fuel { st with have_error := false })).1 := by
  have h := getDataValidate_spec cb st.fi
    (getDataDecomp cb fuel { st with have_error := false }) hok
  obtain ⟨hout, hlen, hcrc⟩ := h
  have e : lowzip_get_data cb fuel st =
      getDataValidate cb st.fi
        (getDataDecomp cb fuel { st with have_error := false }) := rfl
  rw [e, hout, hlen, hcrc]
  exact ⟨rfl, rfl⟩

/-- C10: for a STORE entry (`compression_method = 0`), `lowzip_get_data`
never modifies `read_offset`; hence, when the data-descriptor flag is set,
the authoritative CRC that an error-free run validated against was read at
the value `read_offset` held before the call (not at an offset derived from
the end of the stored data). -/
theorem store_descriptor_read_offset (cb : Callback) (fuel : Nat)
    (st : LowzipState) (hm : st.fi.compression_method = 0) :
    (lowzip_get_data cb fuel st).read_offset = st.read_offset ∧
    ((lowzip_get_data cb fuel st).have_error = false →
      st.fi.have_data_descriptor ≠ 0 →
      lowzip_zip_crc32 (lowzip_get_data cb fuel st).out =
        descriptorCrcVal cb st.read_offset) := by
  have hdecomp : getDataDecomp cb fuel { st with have_error := false } =
      storeCopyLoop cb
        (((st.fi.data_offset + st.fi.uncompressed_size) % U32) -
          st.fi.data_offset) st.fi.data_offset
        { st with have_error := false } := by
    simp only [getDataDecomp, hm]
    rfl
  have hro : (getDataDecomp cb fuel
      { st with have_error := false }).read_offset = st.read_offset := by
    rw [hdecomp, storeCopyLoop_read_offset]
  have e : lowzip_get_data cb fuel st =
      getDataValidate cb st.fi
        (getDataDecomp cb fuel { st with have_error := false }) := rfl
  constructor
  · rw [e, getDataValidate_read_offset, hro]
  · intro hok hdd
    obtain ⟨hout, hlen, hcrc⟩ := getDataValidate_spec cb st.fi
      (getDataDecomp cb fuel { st with have_error := false }) hok
    rw [e, hout, hcrc, getDataHeaderCrc_val cb st.fi _ hdd, hro]

/-- Witness for `get_data_postcondition`: a concrete empty STORE entry whose
header CRC is 0 extracts without error, and the postcondition holds. -/
theorem get_data_postcondition_witness :
    (lowzip_get_data c8base 1 witnessState).have_error = false ∧
    ((lowzip_get_data c8base 1 witnessState).out.length =
        witnessState.fi.uncompressed_size ∧
      lowzip_zip_crc32 (lowzip_get_data c8base 1 witnessState).out =
        (getDataHeaderCrc c8base witnessState.fi
          (getDataDecomp c8base 1
            { witnessState with have_error := false })).1) :=
  ⟨by decide, get_data_postcondition c8base 1 witnessState (by decide)⟩

/-- Witness for `store_descriptor_read_offset`: a concrete STORE entry with
the data-descriptor flag set. -/
theorem store_descriptor_read_offset_witness :
    c10state.fi.compression_method = 0 ∧
    ((lowzip_get_data c10cb 1 c10state).read_offset = c10state.read_offset ∧
      ((lowzip_get_data c10cb 1 c10state).have_error = false →
        c10state.fi.have_data_descriptor ≠ 0 →
        lowzip_zip_crc32 (lowzip_get_data c10cb 1 c10state).out =
          descriptorCrcVal c10cb c10state.read_offset)) :=
  ⟨by decide, store_descriptor_read_offset c10cb 1 c10state (by decide)⟩

/-! ### C3: Huffman decoding never reads past the symbols array -/

theorem getD_set_self (l : List Nat) :
    ∀ (i : Nat) (v : Nat), i < l.length → (l.set i v).getD i 0 = v := by
  induction l with
  | nil => intro i v h; simp at h
  | cons a t ih =>
    intro i v h
    cases i with
    | zero => rfl
    | succ i =>
      simp only [List.set, List.getD_cons_succ]
      exact ih i v (by simpa using h)

theorem getD_set_other (l : List Nat) :
    ∀ (i j : Nat) (v : Nat), i ≠ j → (l.set i v).getD j 0 = l.getD j 0 := by
  induction l with
  | nil => intro i j v _; simp [List.set]
  | cons a t ih =>
    intro i j v hij
    cases i with
    | zero =>
      cases j with
      | zero => exact absurd rfl hij
      | succ j => rfl
    | succ i =>
      cases j with
      | zero => rfl
      | succ j =>
        simp only [List.set, List.getD_cons_succ]
        exact ih i j v (by omega)

/-- Specification of the counting loop of `lowzip_prepare_huffman`: when all
lengths are at most 15 and no counter can reach 65536, the result counts
each length value exactly. -/
theorem prepCountsLoop_spec :
    ∀ (ls acc : List Nat), (∀ l ∈ ls, l ≤ 15) → acc.length = 16 →
      (∀ j, acc.getD j 0 + (ls.filter (fun l => l = j)).length ≤ 65535) →
      ∃ counts, prepCountsLoop ls acc = some counts ∧ counts.length = 16 ∧
        ∀ j, counts.getD j 0 = acc.getD j 0 + (ls.filter (fun l => l = j)).length := by
  intro ls
  induction ls with
  | nil =>
    intro acc _ hlen _
    exact ⟨acc, rfl, hlen, fun j => by simp⟩
  | cons t rest ih =>
    intro acc hle hlen hcap
    have ht : t ≤ 15 := hle t (List.mem_cons_self t rest)
    have hmod : (acc.getD t 0 + 1) % 65536 = acc.getD t 0 + 1 := by
      have := hcap t
      simp only [List.filter_cons, decide_eq_true_eq, eq_self_iff_true,
        if_true, List.length_cons] at this
      omega
    simp only [prepCountsLoop, if_neg (by omega : ¬t > 15), hmod]
    obtain ⟨counts, h1, h2, h3⟩ := ih (acc.set t (acc.getD t 0 + 1))
      (fun l hl => hle l (List.mem_cons_of_mem t hl))
      (by rw [List.length_set]; exact hlen)
      (by
        intro j
        by_cases hj : t = j
        · subst hj
          rw [getD_set_self acc t _ (by omega)]
          have := hcap t
          simp only [List.filter_cons, decide_eq_true_eq, eq_self_iff_true,
            if_true, List.length_cons] at this
          omega
        · rw [getD_set_other acc t j _ hj]
          have := hcap j
          simp only [List.filter_cons, decide_eq_true_eq, if_neg hj] at this
          omega)
    refine ⟨counts, h1, h2, fun j => ?_⟩
    by_cases hj : t = j
    · subst hj
      rw [h3 t, getD_set_self acc t _ (by omega)]
      simp only [List.filter_cons, decide_eq_true_eq, eq_self_iff_true,
        if_true, List.length_cons]
      omega
    · rw [h3 j, getD_set_other acc t j _ hj]
      simp only [List.filter_cons, decide_eq_true_eq, if_neg hj]

/-- Counting matching indices over `List.range` equals counting matching
values, linking the codes pass of `lowzip_prepare_huffman` (which iterates
indices) to the counts pass (which iterates values). -/
theorem countIdx (i : Nat) :
    ∀ (ls : List Nat),
      ((List.range ls.length).filter (fun j => ls.getD j 0 = i)).length =
        (ls.filter (fun l => l = i)).length := by
  intro ls
  induction ls with
  | nil => rfl
  | cons a t ih =>
    simp only [List.length_cons, List.range_succ_eq_map, List.filter_cons,
      List.getD_cons_zero, List.filter_map, List.length_map]
    have hp : ∀ j : Nat,
        ((a :: t).getD (Nat.succ j) 0 = i) = (t.getD j 0 = i) := by
      intro j
      rfl
    simp only [Function.comp_def, List.getD_cons_succ]
    split
    · simp only [List.length_cons, List.length_map]
      rw [ih]
    · rw [List.length_map, ih]

theorem sum_getD_range :
    ∀ (t : List Nat),
      ((List.range t.length).map (fun j => t.getD j 0)).sum = t.sum := by
  intro t
  induction t with
  | nil => rfl
  | cons a t ih =>
    simp only [List.length_cons, List.range_succ_eq_map, List.map_cons,
      List.map_map, List.sum_cons, List.getD_cons_zero, Function.comp_def,
      List.getD_cons_succ]
    rw [ih]

/-- The sum of bucket sizes over a duplicate-free list of length values is
at most the number of values. -/
theorem bucket_sum_le (I : List Nat) (hI : I.Nodup) :
    ∀ (ls : List Nat),
      (I.map (fun i => (ls.filter (fun l => l = i)).length)).sum ≤
        ls.length := by
  intro ls
  induction ls with
  | nil => simp
  | cons a t ih =>
    have hsingle : ∀ (J : List Nat), J.Nodup →
        (J.map (fun i => if a = i then (1 : Nat) else 0)).sum ≤ 1 := by
      intro J
      induction J with
      | nil => simp
      | cons b J' ihJ =>
        intro hJ
        simp only [List.map_cons, List.sum_cons]
        by_cases hab : a = b
        · subst hab
          simp only [eq_self_iff_true, if_true]
          have hz : (J'.map (fun i => if a = i then (1 : Nat) else 0)).sum = 0 := by
            rw [List.sum_eq_zero]
            intro x hx
            obtain ⟨i, hi, rfl⟩ := List.mem_map.mp hx
            have : a ≠ i := fun h => (List.nodup_cons.mp hJ).1 (h ▸ hi)
            rw [if_neg this]
          omega
        · rw [if_neg hab]
          have := ihJ (List.nodup_cons.mp hJ).2
          omega
    have hstep : ∀ i : Nat,
        ((a :: t).filter (fun l => l = i)).length =
          (t.filter (fun l => l = i)).length + (if a = i then 1 else 0) := by
      intro i
      simp only [List.filter_cons, decide_eq_true_eq]
      split
      · simp only [List.length_cons]
      · simp
    calc (I.map (fun i => ((a :: t).filter (fun l => l = i)).length)).sum
        = (I.map (fun i => (t.filter (fun l => l = i)).length +
            (if a = i then 1 else 0))).sum := by
          congr 1
          exact List.map_congr_left (fun i _ => hstep i)
      _ = (I.map (fun i => (t.filter (fun l => l = i)).length)).sum +
            (I.map (fun i => if a = i then (1 : Nat) else 0)).sum := by
          rw [← List.sum_map_add]
      _ ≤ t.length + 1 := Nat.add_le_add ih (hsingle I hI)
      _ = (a :: t).length := by simp

theorem getD_replicate_zero : ∀ (n i : Nat),
    (List.replicate n (0 : Nat)).getD i 0 = 0 := by
  intro n
  induction n with
  | zero => intro i; simp
  | succ n ih =>
    intro i
    cases i with
    | zero => rfl
    | succ i => simp only [List.replicate, List.getD_cons_succ]; exact ih i

theorem prepCodes_length (ls : List Nat) :
    (prepCodes ls).length =
      ((List.range' 1 15).map
        (fun i => (ls.filter (fun l => l = i)).length)).sum := by
  simp only [prepCodes, List.length_flatMap]
  congr 1
  exact List.map_congr_left (fun i _ => countIdx i ls)

theorem range'_one_sum (c0 : Nat) (t : List Nat) :
    ((List.range' 1 t.length).map (fun i => (c0 :: t).getD i 0)).sum =
      t.sum := by
  rw [List.range'_eq_map_range, List.map_map]
  have h : ∀ j : Nat, (c0 :: t).getD (1 + j) 0 = t.getD j 0 := by
    intro j
    rw [Nat.add_comm]
    rfl
  calc ((List.range t.length).map ((fun i => (c0 :: t).getD i 0) ∘
          (fun i => 1 + i))).sum
      = ((List.range t.length).map (fun j => t.getD j 0)).sum := by
        congr 1
        exact List.map_congr_left (fun j _ => h j)
    _ = t.sum := sum_getD_range t

/-- Specification of a successful `lowzip_prepare_huffman` run: the codes
list is `prepCodes`, the counts for lengths 1..15 sum to exactly the number
of symbols written, and that number is at most the input length. -/
theorem prepare_huffman_success (stp : LowzipState) (ls : List Nat)
    (hle : ∀ l ∈ ls, l ≤ 15) (hlen : ls.length ≤ 65535) :
    (lowzip_prepare_huffman stp ls).2.codes = prepCodes ls ∧
    ((lowzip_prepare_huffman stp ls).2.counts.drop 1).sum =
      (prepCodes ls).length ∧
    (prepCodes ls).length ≤ ls.length ∧
    (lowzip_prepare_huffman stp ls).2.counts.length = 16 := by
  obtain ⟨counts, h1, h2, h3⟩ := prepCountsLoop_spec ls
    (List.replicate 16 0) hle (by simp)
    (by
      intro j
      rw [getD_replicate_zero]
      have := List.length_filter_le (fun l => decide (l = j)) ls
      omega)
  have hup : lowzip_prepare_huffman stp ls = (stp, ⟨counts, prepCodes ls⟩) := by
    simp only [lowzip_prepare_huffman, h1]
  rw [hup]
  have hdrop : (counts.drop 1).sum = (prepCodes ls).length := by
    rcases counts with _ | ⟨c0, t⟩
    · simp at h2
    · have ht : t.length = 15 := by simpa using h2
      have : (c0 :: t).drop 1 = t := rfl
      rw [this, prepCodes_length]
      rw [← range'_one_sum c0 t, ht]
      congr 1
      refine List.map_congr_left (fun i hi => ?_)
      have := h3 i
      rw [getD_replicate_zero] at this
      simp only [Nat.zero_add] at this
      rw [this]
  have hle2 : (prepCodes ls).length ≤ ls.length := by
    rw [prepCodes_length]
    exact bucket_sum_le (List.range' 1 15) (List.nodup_range' 1 15) ls
  exact ⟨rfl, hdrop, hle2, h2⟩

theorem usub32_eq_sub (a b : Nat) (hba : b ≤ a) (ha : a < U32) :
    usub32 a b = a - b := by
  simp only [usub32, U32] at *
  omega

theorem usub32_eq_wrap (a b : Nat) (hab : a < b) (hb : b < U32) :
    usub32 a b = U32 - (b - a) := by
  simp only [usub32, U32] at *
  omega

/-- Arithmetic step for the level walk: if the running code_start value is
bounded by `(2^(k+1) - 2) * S` and the current level count is at most `S`,
then after adding the count and doubling, the bound at level `k + 1` holds. -/
theorem csBound (k S cs c : Nat) (hcs : cs ≤ (2 ^ (k + 1) - 2) * S)
    (hcS : c ≤ S) : (cs + c) <<< 1 ≤ (2 ^ (k + 2) - 2) * S := by
  obtain ⟨Q, hQ⟩ : ∃ Q, (2 : Nat) ^ (k + 1) = Q + 2 :=
    ⟨2 ^ (k + 1) - 2, by
      have h2 : (2 : Nat) ≤ 2 ^ (k + 1) := by
        calc (2 : Nat) = 2 ^ 1 := (pow_one 2).symm
          _ ≤ 2 ^ (k + 1) := Nat.pow_le_pow_right (by norm_num) (by omega)
      omega⟩
  have e0 : (2 ^ (k + 1) - 2) * S = Q * S := by rw [hQ]; congr 1
  have e1 : (2 ^ (k + 2) - 2) * S = 2 * (Q * S) + 2 * S := by
    rw [pow_succ, hQ]
    have h3 : ((Q + 2) * 2 - 2) = 2 * Q + 2 := by omega
    rw [h3]
    ring
  rw [Nat.shiftLeft_eq, pow_one, e1]
  rw [e0] at hcs
  omega

/-- Safety invariant of the level walk of `lowzip_decode_huffman`: starting
from a consistent table (offsets plus remaining counts equal the symbol
count `S ≤ 65535`), the walk either returns a symbol read from an in-bounds
index of the codes array, or flags the error and returns 0. -/
theorem decodeHuffLoop_safe (cb : Callback) (codes : List Nat) (S : Nat)
    (hS : S = codes.length) (hS2 : S ≤ 65535) :
    ∀ (lvls : List Nat) (st : LowzipState) (code code_start codes_offset
      k : Nat),
      codes_offset + lvls.sum = S →
      code < 2 ^ k →
      code_start ≤ (2 ^ (k + 1) - 2) * S →
      lvls.length + k ≤ 15 →
      (∃ idx, idx < codes.length ∧
        (decodeHuffLoop cb codes st code code_start codes_offset lvls).1 =
          codes.getD idx 0) ∨
      ((decodeHuffLoop cb codes st code code_start codes_offset lvls).1 = 0 ∧
        (decodeHuffLoop cb codes st code code_start codes_offset
          lvls).2.have_error = true) := by
  intro lvls
  induction lvls with
  | nil =>
    intro st code cs co k _ _ _ _
    exact Or.inr ⟨rfl, rfl⟩
  | cons c rest ih =>
    intro st code cs co k hsum hcode hcs hlen
    have hb : (lowzip_read_bits cb st 1).1 ≤ 1 := by
      simp only [lowzip_read_bits]
      have := Nat.and_le_right
        (n := (readBitsFill cb 1 st st.curr st.haveBits 1).1)
        (m := (1 <<< 1) - 1)
      simpa using this
    have hk16 : k + 2 ≤ 16 := by
      simp only [List.length_cons] at hlen
      omega
    have hpow : (2 : Nat) ^ (k + 1) ≤ 2 ^ 15 :=
      Nat.pow_le_pow_right (by norm_num) (by omega)
    have hpow2 : (2 : Nat) ^ (k + 2) ≤ 2 ^ 16 :=
      Nat.pow_le_pow_right (by norm_num) (by omega)
    have hcode2 : (code <<< 1) + (lowzip_read_bits cb st 1).1 < 2 ^ (k + 1) := by
      rw [Nat.shiftLeft_eq, pow_one, pow_succ]
      omega
    have hc2U : (code <<< 1) + (lowzip_read_bits cb st 1).1 < U32 := by
      have : (2 : Nat) ^ 15 < U32 := by norm_num [U32]
      omega
    have hmod2 : ((code <<< 1) + (lowzip_read_bits cb st 1).1) % U32 =
        (code <<< 1) + (lowzip_read_bits cb st 1).1 :=
      Nat.mod_eq_of_lt hc2U
    have hcS : c ≤ S := by
      simp only [List.sum_cons] at hsum
      omega
    have hcsU : cs < U32 := by
      have hb1 : (2 ^ (k + 1) - 2) * S ≤ (2 ^ 16 - 2) * 65535 := by
        refine Nat.mul_le_mul ?_ hS2
        have : (2:Nat) ^ (k+1) ≤ 2 ^ 16 := Nat.pow_le_pow_right (by norm_num) (by omega)
        omega
      have hb2 : ((2 : Nat) ^ 16 - 2) * 65535 < U32 := by norm_num [U32]
      omega
    simp only [decodeHuffLoop]
    set b := (lowzip_read_bits cb st 1).1 with hbdef
    rw [hmod2]
    by_cases hord : cs ≤ (code <<< 1) + b
    · rw [usub32_eq_sub _ _ hord hc2U]
      by_cases hterm : (code <<< 1) + b - cs < c
      · rw [if_pos hterm]
        have hco : co + ((code <<< 1) + b - cs) < S := by
          simp only [List.sum_cons] at hsum
          omega
        have hmodi : (co + ((code <<< 1) + b - cs)) % U32 =
            co + ((code <<< 1) + b - cs) := by
          apply Nat.mod_eq_of_lt
          have : (65535 : Nat) < U32 := by norm_num [U32]
          omega
        rw [hmodi]
        exact Or.inl ⟨_, hS ▸ hco, rfl⟩
      · rw [if_neg hterm]
        refine ih _ _ _ _ (k + 1) ?_ ?_ ?_ ?_
        · have hcoS : co + c ≤ S := by
            simp only [List.sum_cons] at hsum
            omega
          have : (co + c) % U32 = co + c := by
            apply Nat.mod_eq_of_lt
            have : (65535 : Nat) < U32 := by norm_num [U32]
            omega
          rw [this]
          simp only [List.sum_cons] at hsum
          omega
        · exact hcode2
        · have h2 : (cs + c) <<< 1 ≤ (2 ^ (k + 2) - 2) * S :=
            csBound k S cs c hcs hcS
          have h3 : ((cs + c) <<< 1) % U32 = (cs + c) <<< 1 := by
            apply Nat.mod_eq_of_lt
            have hb1 : (2 ^ (k + 2) - 2) * S ≤ (2 ^ 16 - 2) * 65535 := by
              refine Nat.mul_le_mul ?_ hS2
              omega
            have hb2 : ((2 : Nat) ^ 16 - 2) * 65535 < U32 := by
              norm_num [U32]
            omega
          rw [h3]
          exact h2
        · simp only [List.length_cons] at hlen
          omega
    · push_neg at hord
      rw [usub32_eq_wrap _ _ hord hcsU]
      have hno : ¬(U32 - (cs - ((code <<< 1) + b)) < c) := by
        have hcsb : cs ≤ (2 ^ 16 - 2) * 65535 := by
          have hb1 : (2 ^ (k + 1) - 2) * S ≤ (2 ^ 16 - 2) * 65535 := by
            refine Nat.mul_le_mul ?_ hS2
            have : (2:Nat) ^ (k+1) ≤ 2 ^ 16 :=
              Nat.pow_le_pow_right (by norm_num) (by omega)
            omega
          omega
        have : ((2 : Nat) ^ 16 - 2) * 65535 + 65536 < U32 := by
          norm_num [U32]
        omega
      rw [if_neg hno]
      refine ih _ _ _ _ (k + 1) ?_ ?_ ?_ ?_
      · have hcoS : co + c ≤ S := by
          simp only [List.sum_cons] at hsum
          omega
        have : (co + c) % U32 = co + c := by
          apply Nat.mod_eq_of_lt
          have : (65535 : Nat) < U32 := by norm_num [U32]
          omega
        rw [this]
        simp only [List.sum_cons] at hsum
        omega
      · exact hcode2
      · have h2 : (cs + c) <<< 1 ≤ (2 ^ (k + 2) - 2) * S :=
          csBound k S cs c hcs hcS
        have h3 : ((cs + c) <<< 1) % U32 = (cs + c) <<< 1 := by
          apply Nat.mod_eq_of_lt
          have hb1 : (2 ^ (k + 2) - 2) * S ≤ (2 ^ 16 - 2) * 65535 := by
            refine Nat.mul_le_mul ?_ hS2
            omega
          have hb2 : ((2 : Nat) ^ 16 - 2) * 65535 < U32 := by
            norm_num [U32]
          omega
        rw [h3]
        exact h2
      · simp only [List.length_cons] at hlen
        omega

/-- C3: for every Huffman table written by `lowzip_prepare_huffman` from code
lengths all in `[0, 15]` (oversubscribed and undersubscribed inputs included;
`code_lens.length ≤ 65535` reflects the 16-bit counters, and every caller
passes at most 318 lengths) and every bit stream, `lowzip_decode_huffman`
either returns a symbol read from the codes array at an index strictly below
the number of symbol entries the builder wrote — it never reads past the end
of the symbols array — or, when no codeword terminates within 15 bits, sets
`have_error` and returns 0. -/
theorem decode_huffman_codes_inbounds (cb : Callback)
    (stp st : LowzipState) (code_lens : List Nat) (huff : HuffTable)
    (hle : ∀ l ∈ code_lens, l ≤ 15) (hlen : code_lens.length ≤ 65535)
    (hh : huff = (lowzip_prepare_huffman stp code_lens).2) :
    (∃ idx, idx < huff.codes.length ∧
      (lowzip_decode_huffman cb st huff).1 = huff.codes.getD idx 0) ∨
    ((lowzip_decode_huffman cb st huff).1 = 0 ∧
      (lowzip_decode_huffman cb st huff).2.have_error = true) := by
  obtain ⟨hc, hs, hl, hct⟩ := prepare_huffman_success stp code_lens hle hlen
  subst hh
  have hS : (prepCodes code_lens).length =
      (lowzip_prepare_huffman stp code_lens).2.codes.length := by rw [hc]
  have hS2 : (prepCodes code_lens).length ≤ 65535 := le_trans hl hlen
  have hsum : (0 : Nat) +
      ((lowzip_prepare_huffman stp code_lens).2.counts.drop 1).sum =
      (prepCodes code_lens).length := by simpa using hs
  have hlvls : ((lowzip_prepare_huffman stp code_lens).2.counts.drop 1).length
      + 0 ≤ 15 := by
    rw [List.length_drop, hct]
  exact decodeHuffLoop_safe cb _ _ hS hS2 _ st 0 0 0 0 hsum (by norm_num)
    (Nat.zero_le _) hlvls

/-- Closed instance of `decode_huffman_codes_inbounds`: the table built from
code lengths `[1, 1]` decoded against the all-zero-bits stream. -/
theorem decode_huffman_codes_inbounds_witness :
    (∀ l ∈ ([1, 1] : List Nat), l ≤ 15) ∧
    ([1, 1] : List Nat).length ≤ 65535 ∧
    ((∃ idx, idx <
        ((lowzip_prepare_huffman witnessState [1, 1]).2).codes.length ∧
        (lowzip_decode_huffman (fun o => o % 2) witnessState
          (lowzip_prepare_huffman witnessState [1, 1]).2).1 =
          ((lowzip_prepare_huffman witnessState [1, 1]).2).codes.getD idx 0) ∨
      ((lowzip_decode_huffman (fun o => o % 2) witnessState
          (lowzip_prepare_huffman witnessState [1, 1]).2).1 = 0 ∧
        (lowzip_decode_huffman (fun o => o % 2) witnessState
          (lowzip_prepare_huffman witnessState
            [1, 1]).2).2.have_error = true)) :=
  ⟨by decide, by decide,
   decode_huffman_codes_inbounds (fun o => o % 2) witnessState witnessState
     [1, 1] _ (by decide) (by decide) rfl⟩

/-! ### C5: locating the end of central directory -/

theorem readLEvalAux_lt (cb : Callback) (offset : Nat) :
    ∀ count res, res < U32 → readLEvalAux cb offset count res < U32 := by
  intro count
  induction count with
  | zero => intro res h; exact h
  | succ c ih =>
    intro res h
    simp only [readLEvalAux]
    split
    · norm_num [U32]
    · exact ih _ (Nat.mod_lt _ (by norm_num [U32]))

theorem readLEval_lt (cb : Callback) (offset count : Nat) :
    readLEval cb offset count < U32 :=
  readLEvalAux_lt cb offset count 0 (by norm_num [U32])

/-- All `count` bytes of a little-endian read lie inside the archive of an
honest callback: no error is flagged, the state is unchanged, and the value
is the pure `readLEvalAux` accumulation. -/
theorem readLEAux_inbounds (cb : Callback) (zl : Nat)
    (hcb : HonestCallback cb zl) (hzl : zl < U32) (st : LowzipState)
    (a : Nat) : ∀ count res, a + count ≤ zl →
      readLEAux cb st a count res = (readLEvalAux cb a count res, st) := by
  intro count
  induction count with
  | zero => intro res _; rfl
  | succ c ih =>
    intro res hc
    have hm : (a + c) % U32 = a + c := Nat.mod_eq_of_lt (by omega)
    have ht : cb (a + c) &&& 0x100 = 0 := (hcb (a + c)).1 (by omega)
    simp only [readLEAux, readLEvalAux, hm]
    rw [if_neg (not_not_intro ht), if_neg (not_not_intro ht)]
    exact ih _ (by omega)

theorem read4_inbounds (cb : Callback) (zl : Nat)
    (hcb : HonestCallback cb zl) (hzl : zl < U32) (st : LowzipState)
    (a : Nat) (h : a + 4 ≤ zl) :
    lowzip_read4 cb st a = (readLEval cb a 4, st) :=
  readLEAux_inbounds cb zl hcb hzl st a 4 0 h

theorem read2_inbounds (cb : Callback) (zl : Nat)
    (hcb : HonestCallback cb zl) (hzl : zl < U32) (st : LowzipState)
    (a : Nat) (h : a + 2 ≤ zl) :
    lowzip_read2 cb st a = (readLEval cb a 2, st) :=
  readLEAux_inbounds cb zl hcb hzl st a 2 0 h

/-- A little-endian read whose base offset is at or past the archive end
always aborts with value 0 and the error flag set: the very last byte read
(at the base offset itself) is out of bounds even if higher addends wrapped
around into the archive. -/
theorem readLEAux_oob (cb : Callback) (zl : Nat) (hcb : HonestCallback cb zl)
    (st : LowzipState) (a : Nat) (ha : a < U32) (hza : zl ≤ a) :
    ∀ count res, readLEAux cb st a (count + 1) res =
      (0, { st with have_error := true }) := by
  intro count
  induction count with
  | zero =>
    intro res
    have hm : (a + 0) % U32 = a := by
      rw [Nat.add_zero]
      exact Nat.mod_eq_of_lt ha
    simp only [readLEAux, hm]
    rw [if_pos ((hcb a).2 hza)]
  | succ c ih =>
    intro res
    simp only [readLEAux]
    split
    · rfl
    · exact ih _

theorem read4_oob (cb : Callback) (zl : Nat) (hcb : HonestCallback cb zl)
    (st : LowzipState) (a : Nat) (ha : a < U32) (hza : zl ≤ a) :
    lowzip_read4 cb st a = (0, { st with have_error := true }) :=
  readLEAux_oob cb zl hcb st a ha hza 3 0

/-- A probe at a negative scan offset: the `int` offset converts to a huge
unsigned address past any honest archive end, so the 4-byte magic read
returns 0 with the error flag set. -/
theorem read4_neg (cb : Callback) (zl : Nat) (hcb : HonestCallback cb zl)
    (hzl : zl < 2 ^ 31) (st : LowzipState) (offset : Int)
    (h1 : -65557 ≤ offset) (h2 : offset < 0) :
    lowzip_read4 cb st (u32ofInt offset) =
      (0, { st with have_error := true }) := by
  have hzl2 : zl < 2147483648 := by
    have h := hzl
    norm_num at h
    exact h
  have h32 : (U32 : Int) = 4294967296 := by norm_num [U32]
  have h32n : U32 = 4294967296 := by norm_num [U32]
  have ha : u32ofInt offset < U32 := by
    simp only [u32ofInt, h32, h32n]
    omega
  have hza : zl ≤ u32ofInt offset := by
    simp only [u32ofInt, h32]
    omega
  exact read4_oob cb zl hcb st _ ha hza

theorem set_have_error_self (st : LowzipState) (h : st.have_error = true) :
    { st with have_error := true } = st := by
  cases st
  simp_all

/-- Once the error flag is set, the scan loop is a no-op (the C loop breaks
at the top of the next iteration and re-sets the already-set flag). -/
theorem initArchiveLoop_err (cb : Callback) (zl : Nat) :
    ∀ (n : Nat) (offset : Int) (st : LowzipState), st.have_error = true →
      initArchiveLoop cb zl n offset st = st := by
  intro n
  induction n with
  | zero => intro offset st h; exact set_have_error_self st h
  | succ n ih =>
    intro offset st h
    simp only [initArchiveLoop]
    rw [if_pos h]
    exact set_have_error_self st h

/-- The scan loop of `lowzip_init_archive`, started error-free with `n`
iterations left at candidate offset `zl - 65558 + n`, computes exactly the
spec-side search: the first accepted candidate's 4-byte value at
`offset + 16` is stored, and exhausting the candidates sets the error
flag. -/
theorem initArchiveLoop_scan (cb : Callback) (zl : Nat)
    (hcb : HonestCallback cb zl) (hzl : zl < 2 ^ 31) :
    ∀ (n : Nat) (offset : Int) (st : LowzipState),
      st.have_error = false →
      offset = (zl : Int) - 65558 + n →
      n ≤ 65536 →
      initArchiveLoop cb zl n offset st =
        match (scanList n offset).find? (eocdAccept cb zl) with
        | some off =>
            { st with central_dir_offset := readLEval cb (off + 16) 4 }
        | none => { st with have_error := true } := by
  have hzl2 : zl < 2147483648 := by
    have h := hzl
    norm_num at h
    exact h
  have h32n : U32 = 4294967296 := by norm_num [U32]
  have hzlU : zl < U32 := by omega
  intro n
  induction n with
  | zero =>
    intro offset st herr hoff hn
    simp only [initArchiveLoop, scanList, List.find?]
  | succ n ih =>
    intro offset st herr hoff hn
    simp only [initArchiveLoop]
    rw [if_neg (by rw [herr]; exact Bool.false_ne_true)]
    by_cases hneg : offset < 0
    · have hscan : scanList (n + 1) offset = [] := by
        simp only [scanList]
        rw [if_pos hneg]
      rw [read4_neg cb zl hcb hzl st offset (by omega) hneg]
      dsimp only
      rw [if_pos (by norm_num)]
      rw [initArchiveLoop_err cb zl n (offset - 1) _ rfl]
      rw [hscan]
      simp only [List.find?]
    · push_neg at hneg
      have hoInt : ((offset.toNat : Int)) = offset := Int.toNat_of_nonneg hneg
      set o : Nat := offset.toNat with hodef
      have ho22 : o + 22 ≤ zl := by omega
      have h32 : (U32 : Int) = 4294967296 := by norm_num [U32]
      have hu0 : u32ofInt offset = o := by
        simp only [u32ofInt, h32]
        omega
      have hu16 : u32ofInt (offset + 16) = o + 16 := by
        simp only [u32ofInt, h32]
        omega
      have hu20 : u32ofInt (offset + 20) = o + 20 := by
        simp only [u32ofInt, h32]
        omega
      have hu22 : u32ofInt (offset + 22) = o + 22 := by
        simp only [u32ofInt, h32]
        omega
      have hscan : scanList (n + 1) offset = o :: scanList n (offset - 1) := by
        simp only [scanList]
        rw [if_neg (not_lt.mpr hneg)]
      rw [hu0, read4_inbounds cb zl hcb hzlU st o (by omega)]
      dsimp only
      by_cases hmagic : readLEval cb o 4 = 0x06054b50
      · rw [if_neg (not_not_intro hmagic)]
        rw [hu20, read2_inbounds cb zl hcb hzlU st (o + 20) (by omega)]
        dsimp only
        rw [hu22]
        have hvlt : readLEval cb (o + 20) 2 < U32 := readLEval_lt cb (o + 20) 2
        by_cases hacc : o + 22 + readLEval cb (o + 20) 2 = zl
        · have hcond : ¬((o + 22 + readLEval cb (o + 20) 2) % U32 ≠
              zl % U32) := by
            rw [hacc]
            exact not_not_intro rfl
          rw [if_neg hcond]
          rw [hu16, read4_inbounds cb zl hcb hzlU st (o + 16) (by omega)]
          dsimp only
          rw [hscan]
          have hpa : eocdAccept cb zl o = true := by
            simp [eocdAccept, hmagic, hacc]
          simp only [List.find?, hpa]
        · have hcond : (o + 22 + readLEval cb (o + 20) 2) % U32 ≠
              zl % U32 := by
            rw [h32n] at hvlt ⊢
            omega
          rw [if_pos hcond]
          rw [ih (offset - 1) st herr (by omega) (by omega)]
          rw [hscan]
          have hpa : eocdAccept cb zl o = false := by
            have hb : (o + 22 + readLEval cb (o + 20) 2 == zl) = false :=
              beq_eq_false_iff_ne.mpr hacc
            simp [eocdAccept, hb]
          simp only [List.find?, hpa]
      · rw [if_pos hmagic]
        rw [ih (offset - 1) st herr (by omega) (by omega)]
        rw [hscan]
        have hpa : eocdAccept cb zl o = false := by
          have hb : (readLEval cb o 4 == 0x06054b50) = false :=
            beq_eq_false_iff_ne.mpr hmagic
          simp [eocdAccept, hb]
        simp only [List.find?, hpa]

/-- C5: `lowzip_init_archive` locates the end-of-central-directory record by
scanning offsets from `zip_length - 22` downwards to `zip_length - 65557` or
0, whichever comes first (for an honest callback a below-zero probe reads
past the archive end and aborts the scan with the error flag), accepting the
first offset at which the 4-byte little-endian magic `0x06054B50` matches
and `offset + 22` plus the 16-bit comment length at `offset + 20` equals
`zip_length`; on acceptance it stores the 4-byte value at `offset + 16` into
`central_dir_offset`, and if no offset is accepted it sets `have_error`. -/
theorem init_archive_eocd_scan (cb : Callback) (st : LowzipState)
    (hcb : HonestCallback cb st.zip_length)
    (hzl : st.zip_length < 2 ^ 31) :
    lowzip_init_archive cb st = lowzip_init_archive_spec cb st := by
  have h := initArchiveLoop_scan cb st.zip_length hcb hzl 65536
    ((st.zip_length : Int) - 22) { st with have_error := false } rfl
    (by push_cast; ring) (by norm_num)
  simp only [lowzip_init_archive]
  rw [h]
  simp only [lowzip_init_archive_spec, eocdScanOffsets]

/-- Closed instance of `init_archive_eocd_scan`: a 22-byte archive holding a
bare end-of-central-directory record is accepted at offset 0 and the stored
central directory offset is 7. -/
theorem init_archive_eocd_scan_witness :
    HonestCallback eocd22cb eocd22state.zip_length ∧
    eocd22state.zip_length < 2 ^ 31 ∧
    lowzip_init_archive eocd22cb eocd22state =
      lowzip_init_archive_spec eocd22cb eocd22state ∧
    lowzip_init_archive_spec eocd22cb eocd22state =
      { eocd22state with
        have_error := false,
        central_dir_offset := 7 } := by
  have hcb : HonestCallback eocd22cb eocd22state.zip_length := by
    intro o
    constructor
    · intro h
      have h22 : o < 22 := h
      interval_cases o <;> decide
    · intro h
      have h22 : (22 : Nat) ≤ o := h
      have he : eocd22cb o = 0x100 := by
        simp only [eocd22cb]
        apply List.getD_eq_default
        simp only [List.length_cons, List.length_nil]
        omega
      rw [he]
      decide
  exact ⟨hcb, by decide,
    init_archive_eocd_scan eocd22cb eocd22state hcb (by decide), rfl⟩

end Lowzip
